import Mathlib

/-!
# BLAKE2s (size-optimised C implementation): embedding and verification

The C functions of `blake2s.c` are embedded as pure Lean functions on an explicit
state record.  Machine words are natural numbers; every place where C truncates to
32 bits carries an explicit `% 2 ^ 32`.  Arrays are lists indexed with `getD`/`set`.

The header `blake2s.h` is not among the embedded sources.  The size constants and the
state record are therefore reconstructed from the specification, and the compile-time
switch `BLAKE2S_64BIT` is an explicit parameter of every function whose body depends
on it, so that every statement covers both builds.

Word loads from the byte buffer (`(const uint32_t*)in`) and the final `memcpy` of the
chain are modelled for a little-endian host, which is what the specification fixes.
-/

namespace Blake2s

/-! ## Constants and state -/

/-- Modelled from the spec: the constant `BLAKE2S_BLOCKBYTES` of the absent `blake2s.h`;
the specification fixes the compression block at 64 bytes. -/
abbrev BLAKE2S_BLOCKBYTES : Nat := 64

/-- Modelled from the spec: the constant `BLAKE2S_OUTLEN` of the absent `blake2s.h`;
the specification fixes the digest length at 32 bytes. -/
abbrev BLAKE2S_OUTLEN : Nat := 32

/-- Modelled from the spec: the record `blake2s_state` of the absent `blake2s.h`, with the
fields used by `blake2s.c`: chain `h[8]`, counter halves `t[0]`, `t[1]`, flag `f0`,
buffer `buf[64]` and its fill level `buflen`. -/
structure blake2s_state where
  h : List Nat
  t0 : Nat
  t1 : Nat
  f0 : Nat
  buf : List Nat
  buflen : Nat
deriving DecidableEq, Repr

/-- Initialisation vector `blake2s_IV`. -/
def blake2s_IV : List Nat :=
  [0x6A09E667, 0xBB67AE85, 0x3C6EF372, 0xA54FF53A,
   0x510E527F, 0x9B05688C, 0x1F83D9AB, 0x5BE0CD19]

/-- Packed permutation table `blake2s_sigma`: two 4-bit indices per byte. -/
def blake2s_sigma : List (List Nat) :=
  [[0x01, 0x23, 0x45, 0x67, 0x89, 0xab, 0xcd, 0xef],
   [0xea, 0x48, 0x9f, 0xd6, 0x1c, 0x02, 0xb7, 0x53],
   [0xb8, 0xc0, 0x52, 0xfd, 0xae, 0x36, 0x71, 0x94],
   [0x79, 0x31, 0xdc, 0xbe, 0x26, 0x5a, 0x40, 0xf8],
   [0x90, 0x57, 0x24, 0xaf, 0xe1, 0xbc, 0x68, 0x3d],
   [0x2c, 0x6a, 0x0b, 0x83, 0x4d, 0x75, 0xfe, 0x19],
   [0xc5, 0x1f, 0xed, 0x4a, 0x07, 0x63, 0x92, 0x8b],
   [0xdb, 0x7e, 0xc1, 0x39, 0x50, 0xf4, 0x86, 0x2a],
   [0x6f, 0xe9, 0xb3, 0x08, 0xc2, 0xd7, 0x14, 0xa5],
   [0xa2, 0x84, 0x76, 0x15, 0xfb, 0x9e, 0x3c, 0xd0]]

/-! ## Word-level helpers -/

/-- Rotate right: `(w >> c) | (w << (32 - c))` on `uint32_t`. -/
def rotr32 (w c : Nat) : Nat :=
  ((w >>> c) ||| (w <<< (32 - c))) % 2 ^ 32

/-- Read of `m[i]` through `(const uint32_t*)in` on a little-endian host. -/
def load32 (inp : List Nat) (i : Nat) : Nat :=
  inp.getD (4 * i) 0 + 2 ^ 8 * inp.getD (4 * i + 1) 0
    + 2 ^ 16 * inp.getD (4 * i + 2) 0 + 2 ^ 24 * inp.getD (4 * i + 3) 0

/-- The four bytes of one 32-bit word as laid out in memory on a little-endian host. -/
def store32 (w : Nat) : List Nat :=
  [w % 256, w / 2 ^ 8 % 256, w / 2 ^ 16 % 256, w / 2 ^ 24 % 256]

/-- Semantics of `memset(buf + off, c, n)` on a byte array. -/
def memset (buf : List Nat) (off c n : Nat) : List Nat :=
  buf.take off ++ List.replicate n c ++ buf.drop (off + n)

/-! ## The functions of `blake2s.c` -/

/-- Function `blake2s_set_lastblock`: `S->f0 = (uint32_t)-1`. -/
def blake2s_set_lastblock (S : blake2s_state) : blake2s_state :=
  { S with f0 := 2 ^ 32 - 1 }

/-- Function `blake2s_increment_counter`; the switch `BLAKE2S_64BIT` of the absent header
is a parameter. -/
def blake2s_increment_counter (BLAKE2S_64BIT : Bool) (S : blake2s_state) (inc : Nat) :
    blake2s_state :=
  let S := { S with t0 := (S.t0 + inc) % 2 ^ 32 }
  if BLAKE2S_64BIT then
    { S with t1 := (S.t1 + (if S.t0 < inc then 1 else 0)) % 2 ^ 32 }
  else S

/-- Function `blake2s_init`: clear the record, load the IV, fold in the parameter word. -/
def blake2s_init (_S : blake2s_state) : blake2s_state :=
  let S : blake2s_state :=
    { h := List.replicate 8 0, t0 := 0, t1 := 0, f0 := 0,
      buf := List.replicate BLAKE2S_BLOCKBYTES 0, buflen := 0 }
  let S := { S with h := blake2s_IV.take 8 }
  let h0 := (S.h.getD 0 0 ^^^ ((1 <<< 24) ||| (1 <<< 16) ||| BLAKE2S_OUTLEN)) % 2 ^ 32
  { S with h := S.h.set 0 h0 }

/-- Body of the loop of `blake2s_round` for one value of `i`. -/
def blake2s_round_body (r : Nat) (m : List Nat) (v : List Nat) (i : Nat) : List Nat :=
  let bit4 := i / 4
  let a := (i + bit4 * 0) % 4 + 0
  let b := (i + bit4 * 1) % 4 + 4
  let c := (i + bit4 * 2) % 4 + 8
  let d := (i + bit4 * 2 + bit4) % 4 + 12
  let sigma := (blake2s_sigma.getD r []).getD i 0
  let m1 := m.getD (sigma >>> 4) 0
  let m2 := m.getD (sigma &&& 0xf) 0
  let v := v.set a ((v.getD a 0 + v.getD b 0 + m1) % 2 ^ 32)
  let v := v.set d (rotr32 (v.getD d 0 ^^^ v.getD a 0) 16)
  let v := v.set c ((v.getD c 0 + v.getD d 0) % 2 ^ 32)
  let v := v.set b (rotr32 (v.getD b 0 ^^^ v.getD c 0) 12)
  let v := v.set a ((v.getD a 0 + v.getD b 0 + m2) % 2 ^ 32)
  let v := v.set d (rotr32 (v.getD d 0 ^^^ v.getD a 0) 8)
  let v := v.set c ((v.getD c 0 + v.getD d 0) % 2 ^ 32)
  v.set b (rotr32 (v.getD b 0 ^^^ v.getD c 0) 7)

/-- Function `blake2s_round`: `for (i = 0; i < 8; i++)`. -/
def blake2s_round (r : Nat) (m : List Nat) (v : List Nat) : List Nat :=
  (List.range 8).foldl (blake2s_round_body r m) v

/-- Function `blake2s_compress`; only the chain `h` of the state is written.  The last loop
assigns each of `h[0..7]` once from its own old value, which is the `map` below. -/
def blake2s_compress (S : blake2s_state) (inp : List Nat) : blake2s_state :=
  let m := (List.range 16).map (load32 inp)
  let v := S.h.take 8 ++ blake2s_IV.take 8
  let v := v.set 12 (v.getD 12 0 ^^^ S.t0)
  let v := v.set 13 (v.getD 13 0 ^^^ S.t1)
  let v := v.set 14 (v.getD 14 0 ^^^ S.f0)
  let v := (List.range 10).foldl (fun v r => blake2s_round r m v) v
  let h := (List.range 8).map fun i => S.h.getD i 0 ^^^ v.getD i 0 ^^^ v.getD (i + 8) 0
  { S with h := h }

/-- First statement of the loop body of `blake2s_update`: a full buffer is counted,
compressed and emptied. -/
def blake2s_update_flush (BLAKE2S_64BIT : Bool) (S : blake2s_state) : blake2s_state :=
  if S.buflen = BLAKE2S_BLOCKBYTES then
    let S := blake2s_increment_counter BLAKE2S_64BIT S BLAKE2S_BLOCKBYTES
    let S := blake2s_compress S S.buf
    { S with buflen := 0 }
  else S

/-- Second statement of the loop body of `blake2s_update`: `S->buf[S->buflen++] = byte`. -/
def blake2s_update_store (S : blake2s_state) (byte : Nat) : blake2s_state :=
  { S with buf := S.buf.set S.buflen byte, buflen := S.buflen + 1 }

/-- Whole loop body of `blake2s_update` for one input byte. -/
def blake2s_update_body (BLAKE2S_64BIT : Bool) (S : blake2s_state) (byte : Nat) :
    blake2s_state :=
  blake2s_update_store (blake2s_update_flush BLAKE2S_64BIT S) byte

/-- Function `blake2s_update`: the loop over the `inlen` bytes of `in`. -/
def blake2s_update (BLAKE2S_64BIT : Bool) (S : blake2s_state) (inp : List Nat) :
    blake2s_state :=
  inp.foldl (blake2s_update_body BLAKE2S_64BIT) S

/-- Function `blake2s_final`: returns the state left behind and the bytes written to `out`. -/
def blake2s_final (BLAKE2S_64BIT : Bool) (S : blake2s_state) : blake2s_state × List Nat :=
  let S := blake2s_increment_counter BLAKE2S_64BIT S S.buflen
  let S := blake2s_set_lastblock S
  let S := { S with buf := memset S.buf S.buflen 0 (BLAKE2S_BLOCKBYTES - S.buflen) }
  let S := blake2s_compress S S.buf
  (S, (S.h.flatMap store32).take BLAKE2S_OUTLEN)

/-- Function `test` of `test.c` without the printing: init, one update, final. -/
def blake2s (BLAKE2S_64BIT : Bool) (S : blake2s_state) (data : List Nat) : List Nat :=
  (blake2s_final BLAKE2S_64BIT (blake2s_update BLAKE2S_64BIT (blake2s_init S) data)).2

/-- One hexadecimal digit as printed by `%x`. -/
def hexDigit (n : Nat) : Char :=
  "0123456789abcdef".toList.getD n '0'

/-- Output of the loop `printf("%02x", result[i])` of `test.c`. -/
def hex (bytes : List Nat) : String :=
  String.mk (bytes.flatMap (fun b => [hexDigit (b / 16), hexDigit (b % 16)]))

end Blake2s

/-! ## Reference algorithm of RFC 7693 (BLAKE2s, unkeyed, 32-byte output)

Written after the pseudocode of sections 2 and 3 of the RFC, independently of the C code:
a plain 10 x 16 `SIGMA` table, explicit word positions for the eight `G` calls, a single
offset counter `t`, and the message split into padded blocks `d[0..dd-1]`. -/

namespace RFC7693

/-- Block size `bb` in bytes. -/
abbrev bb : Nat := 64

/-- Initialisation vector (section 2.6). -/
def IV : List Nat :=
  [0x6A09E667, 0xBB67AE85, 0x3C6EF372, 0xA54FF53A,
   0x510E527F, 0x9B05688C, 0x1F83D9AB, 0x5BE0CD19]

/-- Message word schedule (section 2.7). -/
def SIGMA : List (List Nat) :=
  [[ 0,  1,  2,  3,  4,  5,  6,  7,  8,  9, 10, 11, 12, 13, 14, 15],
   [14, 10,  4,  8,  9, 15, 13,  6,  1, 12,  0,  2, 11,  7,  5,  3],
   [11,  8, 12,  0,  5,  2, 15, 13, 10, 14,  3,  6,  7,  1,  9,  4],
   [ 7,  9,  3,  1, 13, 12, 11, 14,  2,  6,  5, 10,  4,  0, 15,  8],
   [ 9,  0,  5,  7,  2,  4, 10, 15, 14,  1, 11, 12,  6,  8,  3, 13],
   [ 2, 12,  6, 10,  0, 11,  8,  3,  4, 13,  7,  5, 15, 14,  1,  9],
   [12,  5,  1, 15, 14, 13,  4, 10,  0,  7,  6,  3,  9,  2,  8, 11],
   [13, 11,  7, 14, 12,  1,  3,  9,  5,  0, 15,  4,  8,  6,  2, 10],
   [ 6, 15, 14,  9, 11,  3,  0,  8, 12,  2, 13,  7,  1,  4, 10,  5],
   [10,  2,  8,  4,  7,  6,  1,  5, 15, 11,  9, 14,  3, 12, 13,  0]]

/-- Rotation right `x >>> n` of a 32-bit word: `(x >> n) ^ (x << (w - n))`, kept to `w` bits. -/
def rotr (x n : Nat) : Nat :=
  ((x >>> n) ^^^ (x <<< (32 - n))) % 2 ^ 32

/-- Mixing function `G` (section 3.1) with `R1..R4 = 16, 12, 8, 7`. -/
def G (v : List Nat) (a b c d x y : Nat) : List Nat :=
  let v := v.set a ((v.getD a 0 + v.getD b 0 + x) % 2 ^ 32)
  let v := v.set d (rotr (v.getD d 0 ^^^ v.getD a 0) 16)
  let v := v.set c ((v.getD c 0 + v.getD d 0) % 2 ^ 32)
  let v := v.set b (rotr (v.getD b 0 ^^^ v.getD c 0) 12)
  let v := v.set a ((v.getD a 0 + v.getD b 0 + y) % 2 ^ 32)
  let v := v.set d (rotr (v.getD d 0 ^^^ v.getD a 0) 8)
  let v := v.set c ((v.getD c 0 + v.getD d 0) % 2 ^ 32)
  v.set b (rotr (v.getD b 0 ^^^ v.getD c 0) 7)

/-- One round of the compression function: four column steps, four diagonal steps. -/
def round (m : List Nat) (v : List Nat) (i : Nat) : List Nat :=
  let s := SIGMA.getD (i % 10) []
  let v := G v 0 4  8 12 (m.getD (s.getD  0 0) 0) (m.getD (s.getD  1 0) 0)
  let v := G v 1 5  9 13 (m.getD (s.getD  2 0) 0) (m.getD (s.getD  3 0) 0)
  let v := G v 2 6 10 14 (m.getD (s.getD  4 0) 0) (m.getD (s.getD  5 0) 0)
  let v := G v 3 7 11 15 (m.getD (s.getD  6 0) 0) (m.getD (s.getD  7 0) 0)
  let v := G v 0 5 10 15 (m.getD (s.getD  8 0) 0) (m.getD (s.getD  9 0) 0)
  let v := G v 1 6 11 12 (m.getD (s.getD 10 0) 0) (m.getD (s.getD 11 0) 0)
  let v := G v 2 7  8 13 (m.getD (s.getD 12 0) 0) (m.getD (s.getD 13 0) 0)
  G v 3 4 9 14 (m.getD (s.getD 14 0) 0) (m.getD (s.getD 15 0) 0)

/-- Compression function `F` (section 3.2): chain `h`, message words `m`, offset counter `t`,
final-block flag `f`. -/
def F (h m : List Nat) (t : Nat) (f : Bool) : List Nat :=
  let v := h ++ IV
  let v := v.set 12 (v.getD 12 0 ^^^ (t % 2 ^ 32))
  let v := v.set 13 (v.getD 13 0 ^^^ (t >>> 32))
  let v := if f then v.set 14 (v.getD 14 0 ^^^ 0xFFFFFFFF) else v
  let v := (List.range 10).foldl (round m) v
  (List.range 8).map fun i => h.getD i 0 ^^^ v.getD i 0 ^^^ v.getD (i + 8) 0

/-- Number of blocks `dd`: `ceil(ll / bb)`, and 1 for the empty message. -/
def dd (ll : Nat) : Nat :=
  if ll = 0 then 1 else (ll + bb - 1) / bb

/-- Block `d[i]` of the zero-padded message, as `bb` bytes. -/
def d (data : List Nat) (i : Nat) : List Nat :=
  let blk := (data.drop (bb * i)).take bb
  blk ++ List.replicate (bb - blk.length) 0

/-- The 16 little-endian message words of a block. -/
def words (blk : List Nat) : List Nat :=
  (List.range 16).map fun j =>
    blk.getD (4 * j) 0 + 2 ^ 8 * blk.getD (4 * j + 1) 0
      + 2 ^ 16 * blk.getD (4 * j + 2) 0 + 2 ^ 24 * blk.getD (4 * j + 3) 0

/-- Little-endian bytes of a 32-bit word. -/
def toBytes (x : Nat) : List Nat :=
  (List.range 4).map fun j => (x >>> (8 * j)) % 256

/-- Hash function BLAKE2s (section 3.3) with `kk = 0` and `nn = 32`. -/
def BLAKE2s (data : List Nat) : List Nat :=
  let ll := data.length
  let h := IV.set 0 (IV.getD 0 0 ^^^ 0x01010000 ^^^ (0 <<< 8) ^^^ 32)
  let h := (List.range (dd ll - 1)).foldl
    (fun h i => F h (words (d data i)) ((i + 1) * bb) false) h
  let h := F h (words (d data (dd ll - 1))) ll true
  (h.flatMap toBytes).take 32

end RFC7693

/-! ## Auxiliary definitions used to state and prove the properties -/

namespace Blake2s

/-- A state record whose memory is all zero: one concrete prior content of the state
memory, used where a closed statement needs one. -/
def zeroed : blake2s_state :=
  { h := List.replicate 8 0, t0 := 0, t1 := 0, f0 := 0,
    buf := List.replicate BLAKE2S_BLOCKBYTES 0, buflen := 0 }

/-- The 64-bit counter value `t[1] * 2^32 + t[0]` held in the two halves. -/
def counter (S : blake2s_state) : Nat :=
  S.t1 * 2 ^ 32 + S.t0

/-- Every entry of the list is a 32-bit word. -/
def Words32 (v : List Nat) : Prop :=
  ∀ x ∈ v, x < 2 ^ 32

/-- One addition line of the mixing step: `v[a] := (v[a] + v[b] + x) mod 2^32`. -/
def addStep (v : List Nat) (a b x : Nat) : List Nat :=
  v.set a ((v.getD a 0 + v.getD b 0 + x) % 2 ^ 32)

/-- One rotation line of the mixing step, for a given rotation function:
`v[d] := rot (v[d] ^ v[a]) n`. -/
def rotStep (rot : Nat → Nat → Nat) (v : List Nat) (d a n : Nat) : List Nat :=
  v.set d (rot (v.getD d 0 ^^^ v.getD a 0) n)

/-- The eight lines of the mixing step as a composition of `addStep` and `rotStep`. -/
def mixSteps (rot : Nat → Nat → Nat) (v : List Nat) (a b c d x y : Nat) : List Nat :=
  rotStep rot (addStep (rotStep rot (addStep (rotStep rot (addStep (rotStep rot
    (addStep v a b x) d a 16) c d 0) b c 12) a b y) d a 8) c d 0) b c 7

/-- Buffer fill level after `n` bytes went through `blake2s_update` from a fresh state:
0 for `n = 0`, otherwise `((n - 1) mod 64) + 1`. -/
def fill (n : Nat) : Nat :=
  if n = 0 then 0 else (n - 1) % 64 + 1

/-- State after `blake2s_init` and one `blake2s_update` call per chunk, in order. -/
def absorb (BLAKE2S_64BIT : Bool) (S : blake2s_state) (chunks : List (List Nat)) :
    blake2s_state :=
  chunks.foldl (blake2s_update BLAKE2S_64BIT) (blake2s_init S)

/-- The input with bit `p` flipped: bit `p mod 8` of byte `p / 8`. -/
def flipBit (x : List Nat) (p : Nat) : List Nat :=
  x.set (p / 8) (x.getD (p / 8) 0 ^^^ (1 <<< (p % 8)))

/-- Number of times the loop of `blake2s_update` takes the branch that calls
`blake2s_compress` while it absorbs the given bytes into the given state. -/
def compressions (BLAKE2S_64BIT : Bool) : blake2s_state → List Nat → Nat
  | _, [] => 0
  | S, byte :: rest =>
    (if S.buflen = BLAKE2S_BLOCKBYTES then 1 else 0)
      + compressions BLAKE2S_64BIT (blake2s_update_body BLAKE2S_64BIT S byte) rest

/-- The 16 indices packed in one row of `blake2s_sigma`: for each byte its high nibble
(`sigma >> 4`) and then its low nibble (`sigma & 0xf`), as read by `blake2s_round`. -/
def unpack (row : List Nat) : List Nat :=
  row.flatMap fun sigma => [sigma >>> 4, sigma &&& 0xf]

/-- Number of compressions over a sequence of `blake2s_update` calls, one per chunk. -/
def compressionsOver (BLAKE2S_64BIT : Bool) : blake2s_state → List (List Nat) → Nat
  | _, [] => 0
  | S, chunk :: rest =>
    compressions BLAKE2S_64BIT S chunk
      + compressionsOver BLAKE2S_64BIT (blake2s_update BLAKE2S_64BIT S chunk) rest

/-- State after `k` successive calls of `blake2s_compress` from the state `S`, call `i`
(counted from 0) made as the loop of `blake2s_update` makes it: after advancing the counter
by `BLAKE2S_BLOCKBYTES`, on bytes `64 i .. 64 i + 63` of `x`. -/
def compressBlocks (BLAKE2S_64BIT : Bool) (S : blake2s_state) (x : List Nat) :
    Nat → blake2s_state
  | 0 => S
  | k + 1 =>
    blake2s_compress
      (blake2s_increment_counter BLAKE2S_64BIT (compressBlocks BLAKE2S_64BIT S x k)
        BLAKE2S_BLOCKBYTES)
      ((x.drop (BLAKE2S_BLOCKBYTES * k)).take BLAKE2S_BLOCKBYTES)

end Blake2s

/-! ## The compression engine in the words of the specification

A second description of `blake2s_compress`, written after section 4.4 of the
specification: message words, working vector, ten rounds, fold-back. -/

namespace Spec

/-- The 64-byte block read as 16 little-endian 32-bit words `m[0..15]`. -/
def blockWords (block : List Nat) : List Nat :=
  (List.range 16).map fun j =>
    block.getD (4 * j) 0 + 2 ^ 8 * block.getD (4 * j + 1) 0
      + 2 ^ 16 * block.getD (4 * j + 2) 0 + 2 ^ 24 * block.getD (4 * j + 3) 0

/-- Working vector: `v[0..7] = h`, `v[8..15] = IV`, then `v[12] ^= t0`, `v[13] ^= t1`,
`v[14] ^= f0`. -/
def workVector (h : List Nat) (t0 t1 f0 : Nat) : List Nat :=
  h ++ [0x6A09E667, 0xBB67AE85, 0x3C6EF372, 0xA54FF53A,
        0x510E527F ^^^ t0, 0x9B05688C ^^^ t1, 0x1F83D9AB ^^^ f0, 0x5BE0CD19]

/-- Exactly ten applications of `blake2s_round`, for `r = 0, 1, ..., 9` in that order. -/
def tenRounds (m v : List Nat) : List Nat :=
  Blake2s.blake2s_round 9 m (Blake2s.blake2s_round 8 m (Blake2s.blake2s_round 7 m
    (Blake2s.blake2s_round 6 m (Blake2s.blake2s_round 5 m (Blake2s.blake2s_round 4 m
      (Blake2s.blake2s_round 3 m (Blake2s.blake2s_round 2 m (Blake2s.blake2s_round 1 m
        (Blake2s.blake2s_round 0 m v)))))))))

/-- New chain: `h[i] XOR v[i] XOR v[i+8]` for `i` in `0..7`, with `v` the working vector
after the ten rounds. -/
def compress (h block : List Nat) (t0 t1 f0 : Nat) : List Nat :=
  (List.range 8).map fun i =>
    h.getD i 0
      ^^^ (tenRounds (blockWords block) (workVector h t0 t1 f0)).getD i 0
      ^^^ (tenRounds (blockWords block) (workVector h t0 t1 f0)).getD (i + 8) 0

end Spec

/-! ## An evaluation-friendly form of the round

`fastRound` computes the same function as `blake2s_round` on a vector of 16 words, with the
four words of each mixing step passed as arguments instead of being read from and written
to the list.  It is used only to evaluate digests of concrete inputs. -/

namespace Blake2s

/-- The four words `a, b, c, d` produced by one mixing step. -/
structure Quad where
  a : Nat
  b : Nat
  c : Nat
  d : Nat

/-- The eight lines of the loop body of `blake2s_round` on the four words themselves. -/
def fastG (a b c d x y : Nat) : Quad :=
  let a := (a + b + x) % 2 ^ 32
  let d := rotr32 (d ^^^ a) 16
  let c := (c + d) % 2 ^ 32
  let b := rotr32 (b ^^^ c) 12
  let a := (a + b + y) % 2 ^ 32
  let d := rotr32 (d ^^^ a) 8
  let c := (c + d) % 2 ^ 32
  let b := rotr32 (b ^^^ c) 7
  ⟨a, b, c, d⟩

/-- One round on a vector of 16 words: four column steps, then four diagonal steps; any
other list is handed to `blake2s_round`. -/
def fastRound (r : Nat) (m : List Nat) : List Nat → List Nat
  | [v0, v1, v2, v3, v4, v5, v6, v7, v8, v9, v10, v11, v12, v13, v14, v15] =>
    let s := blake2s_sigma.getD r []
    let g0 := fastG v0 v4 v8 v12 (m.getD (s.getD 0 0 >>> 4) 0) (m.getD (s.getD 0 0 &&& 0xf) 0)
    let g1 := fastG v1 v5 v9 v13 (m.getD (s.getD 1 0 >>> 4) 0) (m.getD (s.getD 1 0 &&& 0xf) 0)
    let g2 := fastG v2 v6 v10 v14 (m.getD (s.getD 2 0 >>> 4) 0) (m.getD (s.getD 2 0 &&& 0xf) 0)
    let g3 := fastG v3 v7 v11 v15 (m.getD (s.getD 3 0 >>> 4) 0) (m.getD (s.getD 3 0 &&& 0xf) 0)
    let g4 := fastG g0.a g1.b g2.c g3.d
      (m.getD (s.getD 4 0 >>> 4) 0) (m.getD (s.getD 4 0 &&& 0xf) 0)
    let g5 := fastG g1.a g2.b g3.c g0.d
      (m.getD (s.getD 5 0 >>> 4) 0) (m.getD (s.getD 5 0 &&& 0xf) 0)
    let g6 := fastG g2.a g3.b g0.c g1.d
      (m.getD (s.getD 6 0 >>> 4) 0) (m.getD (s.getD 6 0 &&& 0xf) 0)
    let g7 := fastG g3.a g0.b g1.c g2.d
      (m.getD (s.getD 7 0 >>> 4) 0) (m.getD (s.getD 7 0 &&& 0xf) 0)
    [g4.a, g5.a, g6.a, g7.a, g7.b, g4.b, g5.b, g6.b, g6.c, g7.c, g4.c, g5.c, g5.d, g6.d,
     g7.d, g4.d]
  | v => blake2s_round r m v

/-- Function `blake2s_compress` with `fastRound` in place of `blake2s_round`. -/
def fastCompress (S : blake2s_state) (inp : List Nat) : blake2s_state :=
  let m := (List.range 16).map (load32 inp)
  let v := S.h.take 8 ++ blake2s_IV.take 8
  let v := v.set 12 (v.getD 12 0 ^^^ S.t0)
  let v := v.set 13 (v.getD 13 0 ^^^ S.t1)
  let v := v.set 14 (v.getD 14 0 ^^^ S.f0)
  let v := (List.range 10).foldl (fun v r => fastRound r m v) v
  let h := (List.range 8).map fun i => S.h.getD i 0 ^^^ v.getD i 0 ^^^ v.getD (i + 8) 0
  { S with h := h }

/-- The bytes written by `blake2s_final`, computed with `fastCompress`. -/
def fastFinal (BLAKE2S_64BIT : Bool) (S : blake2s_state) : List Nat :=
  let S := blake2s_increment_counter BLAKE2S_64BIT S S.buflen
  let S := blake2s_set_lastblock S
  let S := { S with buf := memset S.buf S.buflen 0 (BLAKE2S_BLOCKBYTES - S.buflen) }
  let S := fastCompress S S.buf
  (S.h.flatMap store32).take BLAKE2S_OUTLEN

end Blake2s

open Blake2s

/-! ## Basic facts about the streaming functions -/

theorem blake2s_update_nil (b : Bool) (S : blake2s_state) : blake2s_update b S [] = S := rfl

theorem blake2s_update_append (b : Bool) (S : blake2s_state) (x y : List Nat) :
    blake2s_update b S (x ++ y) = blake2s_update b (blake2s_update b S x) y := by
  simp [blake2s_update, List.foldl_append]

theorem blake2s_update_snoc (b : Bool) (S : blake2s_state) (x : List Nat) (y : Nat) :
    blake2s_update b S (x ++ [y]) = blake2s_update_body b (blake2s_update b S x) y := by
  simp [blake2s_update, List.foldl_append]

theorem foldl_update_flatten (b : Bool) (S : blake2s_state) (chunks : List (List Nat)) :
    chunks.foldl (blake2s_update b) S = blake2s_update b S chunks.flatten := by
  induction chunks generalizing S with
  | nil => rfl
  | cons c cs ih => simp only [List.foldl_cons, List.flatten_cons, ih, blake2s_update_append]

theorem absorb_eq_update (b : Bool) (S : blake2s_state) (chunks : List (List Nat)) :
    absorb b S chunks = blake2s_update b (blake2s_init S) chunks.flatten :=
  foldl_update_flatten b (blake2s_init S) chunks

theorem blake2s_prior (b : Bool) (S : blake2s_state) (x : List Nat) :
    blake2s b S x = blake2s b zeroed x := rfl

theorem compress_h_length (S : blake2s_state) (inp : List Nat) :
    (blake2s_compress S inp).h.length = 8 := by
  simp [blake2s_compress]

theorem serialize_chain (h : List Nat) (hl : h.length = 8) :
    ((h.flatMap store32).take BLAKE2S_OUTLEN).length = 32 ∧
    ∀ i, i < 8 → ∀ j, j < 4 →
      ((h.flatMap store32).take BLAKE2S_OUTLEN).getD (4 * i + j) 0
        = h.getD i 0 / 2 ^ (8 * j) % 256 := by
  match h, hl with
  | [a0, a1, a2, a3, a4, a5, a6, a7], _ =>
    refine ⟨rfl, ?_⟩
    intro i hi j hj
    interval_cases i <;> interval_cases j <;> simp [store32, List.flatMap]

/-! ## Frame facts: which fields each function leaves alone -/

@[simp] theorem compress_t0 (S : blake2s_state) (inp : List Nat) :
    (blake2s_compress S inp).t0 = S.t0 := rfl
@[simp] theorem compress_t1 (S : blake2s_state) (inp : List Nat) :
    (blake2s_compress S inp).t1 = S.t1 := rfl
@[simp] theorem compress_f0 (S : blake2s_state) (inp : List Nat) :
    (blake2s_compress S inp).f0 = S.f0 := rfl
@[simp] theorem compress_buf (S : blake2s_state) (inp : List Nat) :
    (blake2s_compress S inp).buf = S.buf := rfl
@[simp] theorem compress_buflen (S : blake2s_state) (inp : List Nat) :
    (blake2s_compress S inp).buflen = S.buflen := rfl

@[simp] theorem increment_h (b : Bool) (S : blake2s_state) (k : Nat) :
    (blake2s_increment_counter b S k).h = S.h := by
  cases b <;> rfl
@[simp] theorem increment_f0 (b : Bool) (S : blake2s_state) (k : Nat) :
    (blake2s_increment_counter b S k).f0 = S.f0 := by
  cases b <;> rfl
@[simp] theorem increment_buf (b : Bool) (S : blake2s_state) (k : Nat) :
    (blake2s_increment_counter b S k).buf = S.buf := by
  cases b <;> rfl
@[simp] theorem increment_buflen (b : Bool) (S : blake2s_state) (k : Nat) :
    (blake2s_increment_counter b S k).buflen = S.buflen := by
  cases b <;> rfl
@[simp] theorem increment_t0 (b : Bool) (S : blake2s_state) (k : Nat) :
    (blake2s_increment_counter b S k).t0 = (S.t0 + k) % 2 ^ 32 := by
  cases b <;> rfl
theorem increment_t1 (b : Bool) (S : blake2s_state) (k : Nat) :
    (blake2s_increment_counter b S k).t1
      = if b then (S.t1 + (if (S.t0 + k) % 2 ^ 32 < k then 1 else 0)) % 2 ^ 32 else S.t1 := by
  cases b <;> rfl

theorem flush_buflen (b : Bool) (S : blake2s_state) :
    (blake2s_update_flush b S).buflen = if S.buflen = 64 then 0 else S.buflen := by
  unfold blake2s_update_flush
  split <;> simp_all

theorem flush_f0 (b : Bool) (S : blake2s_state) :
    (blake2s_update_flush b S).f0 = S.f0 := by
  unfold blake2s_update_flush
  split <;> simp

theorem flush_buf (b : Bool) (S : blake2s_state) :
    (blake2s_update_flush b S).buf = S.buf := by
  unfold blake2s_update_flush
  split <;> simp

theorem flush_h_length (b : Bool) (S : blake2s_state) (h : S.h.length = 8) :
    (blake2s_update_flush b S).h.length = 8 := by
  unfold blake2s_update_flush
  split
  · simp [compress_h_length]
  · exact h

theorem flush_t0 (b : Bool) (S : blake2s_state) :
    (blake2s_update_flush b S).t0 = if S.buflen = 64 then (S.t0 + 64) % 2 ^ 32 else S.t0 := by
  unfold blake2s_update_flush
  split <;> simp_all

theorem flush_t1 (b : Bool) (S : blake2s_state) :
    (blake2s_update_flush b S).t1
      = if S.buflen = 64 ∧ b = true then
          (S.t1 + (if (S.t0 + 64) % 2 ^ 32 < 64 then 1 else 0)) % 2 ^ 32
        else S.t1 := by
  unfold blake2s_update_flush
  split <;> simp_all [increment_t1]

theorem fill_le (n : Nat) : fill n ≤ 64 := by
  unfold fill; split_ifs <;> omega

theorem fill_le_self (n : Nat) : fill n ≤ n := by
  unfold fill; split_ifs <;> omega

theorem fill_succ (n : Nat) : fill (n + 1) = (if fill n = 64 then 0 else fill n) + 1 := by
  unfold fill; split_ifs <;> first | omega | contradiction

theorem sub_fill_succ (n : Nat) :
    n + 1 - fill (n + 1) = if fill n = 64 then n - fill n + 64 else n - fill n := by
  unfold fill; split_ifs <;> first | omega | contradiction

theorem sub_fill_dvd (n : Nat) : 64 ∣ n - fill n := by
  unfold fill; split_ifs <;> omega

/-- Invariant of the streaming state after `n` bytes from a fresh state: fill level,
flag, both counter halves and the sizes of the arrays. -/
theorem update_invariant (b : Bool) (S0 : blake2s_state) (x : List Nat) :
    (blake2s_update b (blake2s_init S0) x).buflen = fill x.length ∧
    (blake2s_update b (blake2s_init S0) x).f0 = 0 ∧
    (blake2s_update b (blake2s_init S0) x).t0 = (x.length - fill x.length) % 2 ^ 32 ∧
    (blake2s_update b (blake2s_init S0) x).t1
      = (if b = true then (x.length - fill x.length) / 2 ^ 32 % 2 ^ 32 else 0) ∧
    (blake2s_update b (blake2s_init S0) x).buf.length = 64 ∧
    (blake2s_update b (blake2s_init S0) x).h.length = 8 := by
  induction x using List.reverseRecOn with
  | nil => exact ⟨rfl, rfl, rfl, by cases b <;> rfl, rfl, rfl⟩
  | append_singleton xs y ih =>
    obtain ⟨hbl, hf, ht0, ht1, hbuf, hh⟩ := ih
    rw [blake2s_update_snoc]
    generalize blake2s_update b (blake2s_init S0) xs = S at *
    simp only [blake2s_update_body, blake2s_update_store, List.length_append,
      List.length_singleton, List.length_set, flush_buflen, flush_f0, flush_buf,
      flush_t0, flush_t1]
    rw [sub_fill_succ, fill_succ, hbl, ht0, ht1]
    generalize xs.length - fill xs.length = c
    generalize fill xs.length = L
    refine ⟨rfl, hf, ?_, ?_, hbuf, flush_h_length b S hh⟩
    · split_ifs <;> omega
    · cases b
      · simp
      · simp only [and_true, if_true]
        split_ifs <;> omega

/-! ## Words, rotations and the mixing step -/

theorem words32_getD {v : List Nat} (hv : Words32 v) (i : Nat) : v.getD i 0 < 2 ^ 32 := by
  rw [List.getD_eq_getElem?_getD]
  cases h : v[i]? with
  | none => simp
  | some x => exact hv x (List.getElem?_mem h)

theorem words32_set {v : List Nat} (hv : Words32 v) (i : Nat) {x : Nat} (hx : x < 2 ^ 32) :
    Words32 (v.set i x) := by
  intro y hy
  rcases List.mem_or_eq_of_mem_set hy with h | h
  · exact hv y h
  · exact h ▸ hx

theorem rotr32_lt (x c : Nat) : rotr32 x c < 2 ^ 32 :=
  Nat.mod_lt _ (by norm_num)

theorem rotr_lt (x c : Nat) : RFC7693.rotr x c < 2 ^ 32 :=
  Nat.mod_lt _ (by norm_num)

theorem testBit_of_lt_two_pow {x n i : Nat} (hx : x < 2 ^ n) (hi : n ≤ i) :
    x.testBit i = false :=
  Nat.testBit_lt_two_pow (Nat.lt_of_lt_of_le hx (Nat.pow_le_pow_right (by norm_num) hi))

/-- On 32-bit words the `|` of the C code and the `^` of the RFC give the same rotation. -/
theorem rotr32_eq_rotr (x c : Nat) (hx : x < 2 ^ 32) (hc : c ≤ 32) :
    rotr32 x c = RFC7693.rotr x c := by
  unfold rotr32 RFC7693.rotr
  apply Nat.eq_of_testBit_eq
  intro i
  simp only [Nat.testBit_mod_two_pow, Nat.testBit_or, Nat.testBit_xor, Nat.testBit_shiftLeft,
    Nat.testBit_shiftRight]
  by_cases hi : i < 32
  · by_cases h2 : i ≥ 32 - c
    · have : x.testBit (c + i) = false := testBit_of_lt_two_pow hx (by omega)
      simp [hi, h2, this]
    · simp [hi, h2]
  · simp [hi]

theorem G_eq_mixSteps (v : List Nat) (a b c d x y : Nat) :
    RFC7693.G v a b c d x y = mixSteps RFC7693.rotr v a b c d x y := rfl

theorem round_body_eq_mixSteps (r : Nat) (m v : List Nat) (i : Nat) :
    blake2s_round_body r m v i
      = mixSteps rotr32 v ((i + i / 4 * 0) % 4 + 0) ((i + i / 4 * 1) % 4 + 4)
          ((i + i / 4 * 2) % 4 + 8) ((i + i / 4 * 2 + i / 4) % 4 + 12)
          (m.getD ((blake2s_sigma.getD r []).getD i 0 >>> 4) 0)
          (m.getD ((blake2s_sigma.getD r []).getD i 0 &&& 0xf) 0) := rfl

theorem addStep_words {v : List Nat} (hv : Words32 v) (a b x : Nat) :
    Words32 (addStep v a b x) :=
  words32_set hv a (Nat.mod_lt _ (by norm_num))

theorem rotStep_words {v : List Nat} (hv : Words32 v) (d a n : Nat) :
    Words32 (rotStep RFC7693.rotr v d a n) :=
  words32_set hv d (rotr_lt _ _)

theorem rotStep_eq {v : List Nat} (hv : Words32 v) (d a n : Nat) (hn : n ≤ 32) :
    rotStep rotr32 v d a n = rotStep RFC7693.rotr v d a n := by
  unfold rotStep
  rw [rotr32_eq_rotr _ _ (Nat.xor_lt_two_pow (words32_getD hv d) (words32_getD hv a)) hn]

theorem mixSteps_words {v : List Nat} (hv : Words32 v) (a b c d x y : Nat) :
    Words32 (mixSteps RFC7693.rotr v a b c d x y) := by
  unfold mixSteps
  exact rotStep_words (addStep_words (rotStep_words (addStep_words (rotStep_words
    (addStep_words (rotStep_words (addStep_words hv _ _ _) _ _ _) _ _ _) _ _ _) _ _ _) _ _ _)
    _ _ _) _ _ _

theorem mixSteps_eq {v : List Nat} (hv : Words32 v) (a b c d x y : Nat) :
    mixSteps rotr32 v a b c d x y = mixSteps RFC7693.rotr v a b c d x y := by
  unfold mixSteps
  have h1 := addStep_words hv a b x
  rw [rotStep_eq h1 d a 16 (by norm_num)]
  have h2 := addStep_words (rotStep_words h1 d a 16) c d 0
  rw [rotStep_eq h2 b c 12 (by norm_num)]
  have h3 := addStep_words (rotStep_words h2 b c 12) a b y
  rw [rotStep_eq h3 d a 8 (by norm_num)]
  have h4 := addStep_words (rotStep_words h3 d a 8) c d 0
  rw [rotStep_eq h4 b c 7 (by norm_num)]

theorem G_words {v : List Nat} (hv : Words32 v) (a b c d x y : Nat) :
    Words32 (RFC7693.G v a b c d x y) := by
  rw [G_eq_mixSteps]; exact mixSteps_words hv a b c d x y

/-- One pass through the loop body of `blake2s_round` is one call of `G` at the computed
word positions with the two message words selected by the packed table. -/
theorem round_body_eq_G (r : Nat) (m v : List Nat) (i : Nat) (hv : Words32 v) :
    blake2s_round_body r m v i
      = RFC7693.G v ((i + i / 4 * 0) % 4 + 0) ((i + i / 4 * 1) % 4 + 4)
          ((i + i / 4 * 2) % 4 + 8) ((i + i / 4 * 2 + i / 4) % 4 + 12)
          (m.getD ((blake2s_sigma.getD r []).getD i 0 >>> 4) 0)
          (m.getD ((blake2s_sigma.getD r []).getD i 0 &&& 0xf) 0) := by
  rw [round_body_eq_mixSteps, G_eq_mixSteps, mixSteps_eq hv]

theorem foldl_congr_inv {α β : Type} (P : β → Prop) (f g : β → α → β) (l : List α)
    (hfg : ∀ b, P b → ∀ a ∈ l, f b a = g b a) (hP : ∀ b, P b → ∀ a ∈ l, P (g b a))
    (b : β) (hb : P b) :
    l.foldl f b = l.foldl g b ∧ P (l.foldl g b) := by
  induction l generalizing b with
  | nil => exact ⟨rfl, hb⟩
  | cons a l ih =>
    simp only [List.foldl_cons]
    rw [hfg b hb a (List.mem_cons_self a l)]
    exact ih (fun b hb a ha => hfg b hb a (List.mem_cons_of_mem _ ha))
      (fun b hb a ha => hP b hb a (List.mem_cons_of_mem _ ha)) _
      (hP b hb a (List.mem_cons_self a l))

theorem range8 : List.range 8 = [0, 1, 2, 3, 4, 5, 6, 7] := by decide

theorem words32_cons {a : Nat} {l : List Nat} (ha : a < 2 ^ 32) (hl : Words32 l) :
    Words32 (a :: l) := by
  intro x hx
  rcases List.mem_cons.mp hx with h | h
  · exact h ▸ ha
  · exact hl x h

theorem words32_nil : Words32 [] := fun _ h => absurd h (List.not_mem_nil _)

theorem F_length (h m : List Nat) (t : Nat) (f : Bool) : (RFC7693.F h m t f).length = 8 := by
  simp [RFC7693.F]

theorem flush_h (b : Bool) (S : blake2s_state) :
    (blake2s_update_flush b S).h
      = if S.buflen = 64 then
          (blake2s_compress (blake2s_increment_counter b S 64) S.buf).h
        else S.h := by
  unfold blake2s_update_flush
  split <;> simp_all

theorem take_set_succ (buf : List Nat) (L y : Nat) (hL : L < buf.length) :
    (buf.set L y).take (L + 1) = buf.take L ++ [y] := by
  induction buf generalizing L with
  | nil => simp at hL
  | cons a l ih =>
    cases L with
    | zero => simp
    | succ L =>
      simp only [List.set_cons_succ, List.take_succ_cons, List.cons_append, List.cons.injEq,
        true_and]
      exact ih L (by simpa using hL)

theorem compress_h_congr (S T : blake2s_state) (inp : List Nat)
    (hh : S.h = T.h) (ht0 : S.t0 = T.t0) (ht1 : S.t1 = T.t1) (hf : S.f0 = T.f0) :
    (blake2s_compress S inp).h = (blake2s_compress T inp).h := by
  unfold blake2s_compress
  simp only [hh, ht0, ht1, hf]

/-- The first `fill n` buffer bytes are the last `fill n` bytes absorbed. -/
theorem update_buf (b : Bool) (S0 : blake2s_state) (x : List Nat) :
    (blake2s_update b (blake2s_init S0) x).buf.take (fill x.length)
      = x.drop (x.length - fill x.length) := by
  induction x using List.reverseRecOn with
  | nil => rfl
  | append_singleton xs y ih =>
    obtain ⟨hbl, hf, ht0, ht1, hbuf, hh⟩ := update_invariant b S0 xs
    rw [blake2s_update_snoc]
    generalize blake2s_update b (blake2s_init S0) xs = S at *
    simp only [blake2s_update_body, blake2s_update_store, List.length_append,
      List.length_singleton, flush_buf, flush_buflen, hbl]
    rw [sub_fill_succ, fill_succ]
    have hfl := fill_le xs.length
    have hfs := fill_le_self xs.length
    by_cases hfull : fill xs.length = 64
    · simp only [hfull, if_true]
      have hsub64 : xs.length - 64 + 64 = xs.length := by omega
      rw [hsub64, List.drop_left]
      cases hS : S.buf with
      | nil => rw [hS] at hbuf; simp at hbuf
      | cons a l => rfl
    · simp only [hfull, if_false]
      rw [take_set_succ _ _ _ (by omega), ih, List.drop_append_of_le_length (by omega)]

theorem compressBlocks_succ (b : Bool) (S : blake2s_state) (x : List Nat) (k : Nat) :
    compressBlocks b S x (k + 1)
      = blake2s_compress (blake2s_increment_counter b (compressBlocks b S x k) 64)
          ((x.drop (64 * k)).take 64) := rfl

theorem compressBlocks_append (b : Bool) (S : blake2s_state) (x ys : List Nat) (k : Nat)
    (hk : 64 * k ≤ x.length) :
    compressBlocks b S (x ++ ys) k = compressBlocks b S x k := by
  induction k with
  | zero => rfl
  | succ k ih =>
    rw [compressBlocks_succ, compressBlocks_succ, ih (by omega),
      List.drop_append_of_le_length (by omega), List.take_append_of_le_length]
    rw [List.length_drop]
    omega

/-- The state after absorbing `x` has the chain, counter halves and flag of the state
obtained from the initial state by `floor((n - 1) / 64)` calls of `blake2s_compress`, each
after advancing the counter by 64, on the consecutive 64-byte blocks of `x`. -/
theorem update_compress_chain (b : Bool) (S0 : blake2s_state) (x : List Nat) :
    (blake2s_update b (blake2s_init S0) x).h
      = (compressBlocks b (blake2s_init S0) x ((x.length - 1) / 64)).h ∧
    (blake2s_update b (blake2s_init S0) x).t0
      = (compressBlocks b (blake2s_init S0) x ((x.length - 1) / 64)).t0 ∧
    (blake2s_update b (blake2s_init S0) x).t1
      = (compressBlocks b (blake2s_init S0) x ((x.length - 1) / 64)).t1 ∧
    (blake2s_update b (blake2s_init S0) x).f0
      = (compressBlocks b (blake2s_init S0) x ((x.length - 1) / 64)).f0 := by
  induction x using List.reverseRecOn with
  | nil => exact ⟨rfl, rfl, rfl, rfl⟩
  | append_singleton xs y ih =>
    obtain ⟨ihh, iht0, iht1, ihf⟩ := ih
    obtain ⟨hbl, hf, ht0, ht1, hbuf, hh⟩ := update_invariant b S0 xs
    have hb := update_buf b S0 xs
    have hfl := fill_le xs.length
    have hfs := fill_le_self xs.length
    rw [blake2s_update_snoc]
    generalize blake2s_update b (blake2s_init S0) xs = S at *
    simp only [blake2s_update_body, blake2s_update_store, List.length_append,
      List.length_singleton, flush_h, flush_t0, flush_t1, flush_f0, hbl]
    by_cases hfull : fill xs.length = 64
    · have hn : xs.length % 64 = 0 ∧ 0 < xs.length := by
        unfold fill at hfull
        split_ifs at hfull
        omega
      have hk : (xs.length + 1 - 1) / 64 = (xs.length - 1) / 64 + 1 := by omega
      have hblock : ((xs ++ [y]).drop (64 * ((xs.length - 1) / 64))).take 64 = S.buf := by
        have e : 64 * ((xs.length - 1) / 64) = xs.length - fill xs.length := by omega
        rw [e, List.drop_append_of_le_length (by omega), ← hb, hfull,
          List.take_append_of_le_length (by rw [List.length_take]; omega),
          List.take_of_length_le (by rw [List.length_take]; omega),
          List.take_of_length_le (by omega)]
      rw [hk, compressBlocks_succ, compressBlocks_append _ _ _ _ _ (by omega), hblock]
      simp only [hfull, if_true, true_and]
      generalize compressBlocks b (blake2s_init S0) xs ((xs.length - 1) / 64) = T at *
      refine ⟨compress_h_congr _ _ _ ?_ ?_ ?_ ?_, ?_, ?_, ?_⟩
      · rw [increment_h, increment_h, ihh]
      · rw [increment_t0, increment_t0, iht0]
      · rw [increment_t1, increment_t1, iht0, iht1]
      · rw [increment_f0, increment_f0, ihf]
      · rw [compress_t0, increment_t0, iht0]
      · rw [compress_t1, increment_t1, iht0, iht1]
      · rw [compress_f0, increment_f0, ihf]
    · have hk : (xs.length + 1 - 1) / 64 = (xs.length - 1) / 64 := by
        unfold fill at hfull; split_ifs at hfull <;> omega
      rw [hk, compressBlocks_append _ _ _ _ _ (by omega)]
      simp only [hfull, if_false, false_and]
      exact ⟨ihh, iht0, iht1, ihf⟩

/-! ## The evaluation-friendly round computes `blake2s_round` -/

theorem mixSteps_at_0_4_8_12 (v0 v1 v2 v3 v4 v5 v6 v7 v8 v9 v10 v11 v12 v13 v14 v15 x y : Nat) :
    mixSteps rotr32 [v0, v1, v2, v3, v4, v5, v6, v7, v8, v9, v10, v11, v12, v13, v14, v15] 0 4 8 12 x y
      = [(fastG v0 v4 v8 v12 x y).a, v1, v2, v3,
         (fastG v0 v4 v8 v12 x y).b, v5, v6, v7,
         (fastG v0 v4 v8 v12 x y).c, v9, v10, v11,
         (fastG v0 v4 v8 v12 x y).d, v13, v14, v15] := by
  simp only [mixSteps, addStep, rotStep, fastG, List.set_cons_zero, List.set_cons_succ,
    List.getD_cons_zero, List.getD_cons_succ, Nat.add_zero]

theorem mixSteps_at_1_5_9_13 (v0 v1 v2 v3 v4 v5 v6 v7 v8 v9 v10 v11 v12 v13 v14 v15 x y : Nat) :
    mixSteps rotr32 [v0, v1, v2, v3, v4, v5, v6, v7, v8, v9, v10, v11, v12, v13, v14, v15] 1 5 9 13 x y
      = [v0, (fastG v1 v5 v9 v13 x y).a, v2, v3,
         v4, (fastG v1 v5 v9 v13 x y).b, v6, v7,
         v8, (fastG v1 v5 v9 v13 x y).c, v10, v11,
         v12, (fastG v1 v5 v9 v13 x y).d, v14, v15] := by
  simp only [mixSteps, addStep, rotStep, fastG, List.set_cons_zero, List.set_cons_succ,
    List.getD_cons_zero, List.getD_cons_succ, Nat.add_zero]

theorem mixSteps_at_2_6_10_14 (v0 v1 v2 v3 v4 v5 v6 v7 v8 v9 v10 v11 v12 v13 v14 v15 x y : Nat) :
    mixSteps rotr32 [v0, v1, v2, v3, v4, v5, v6, v7, v8, v9, v10, v11, v12, v13, v14, v15] 2 6 10 14 x y
      = [v0, v1, (fastG v2 v6 v10 v14 x y).a, v3,
         v4, v5, (fastG v2 v6 v10 v14 x y).b, v7,
         v8, v9, (fastG v2 v6 v10 v14 x y).c, v11,
         v12, v13, (fastG v2 v6 v10 v14 x y).d, v15] := by
  simp only [mixSteps, addStep, rotStep, fastG, List.set_cons_zero, List.set_cons_succ,
    List.getD_cons_zero, List.getD_cons_succ, Nat.add_zero]

theorem mixSteps_at_3_7_11_15 (v0 v1 v2 v3 v4 v5 v6 v7 v8 v9 v10 v11 v12 v13 v14 v15 x y : Nat) :
    mixSteps rotr32 [v0, v1, v2, v3, v4, v5, v6, v7, v8, v9, v10, v11, v12, v13, v14, v15] 3 7 11 15 x y
      = [v0, v1, v2, (fastG v3 v7 v11 v15 x y).a,
         v4, v5, v6, (fastG v3 v7 v11 v15 x y).b,
         v8, v9, v10, (fastG v3 v7 v11 v15 x y).c,
         v12, v13, v14, (fastG v3 v7 v11 v15 x y).d] := by
  simp only [mixSteps, addStep, rotStep, fastG, List.set_cons_zero, List.set_cons_succ,
    List.getD_cons_zero, List.getD_cons_succ, Nat.add_zero]

theorem mixSteps_at_0_5_10_15 (v0 v1 v2 v3 v4 v5 v6 v7 v8 v9 v10 v11 v12 v13 v14 v15 x y : Nat) :
    mixSteps rotr32 [v0, v1, v2, v3, v4, v5, v6, v7, v8, v9, v10, v11, v12, v13, v14, v15] 0 5 10 15 x y
      = [(fastG v0 v5 v10 v15 x y).a, v1, v2, v3,
         v4, (fastG v0 v5 v10 v15 x y).b, v6, v7,
         v8, v9, (fastG v0 v5 v10 v15 x y).c, v11,
         v12, v13, v14, (fastG v0 v5 v10 v15 x y).d] := by
  simp only [mixSteps, addStep, rotStep, fastG, List.set_cons_zero, List.set_cons_succ,
    List.getD_cons_zero, List.getD_cons_succ, Nat.add_zero]

theorem mixSteps_at_1_6_11_12 (v0 v1 v2 v3 v4 v5 v6 v7 v8 v9 v10 v11 v12 v13 v14 v15 x y : Nat) :
    mixSteps rotr32 [v0, v1, v2, v3, v4, v5, v6, v7, v8, v9, v10, v11, v12, v13, v14, v15] 1 6 11 12 x y
      = [v0, (fastG v1 v6 v11 v12 x y).a, v2, v3,
         v4, v5, (fastG v1 v6 v11 v12 x y).b, v7,
         v8, v9, v10, (fastG v1 v6 v11 v12 x y).c,
         (fastG v1 v6 v11 v12 x y).d, v13, v14, v15] := by
  simp only [mixSteps, addStep, rotStep, fastG, List.set_cons_zero, List.set_cons_succ,
    List.getD_cons_zero, List.getD_cons_succ, Nat.add_zero]

theorem mixSteps_at_2_7_8_13 (v0 v1 v2 v3 v4 v5 v6 v7 v8 v9 v10 v11 v12 v13 v14 v15 x y : Nat) :
    mixSteps rotr32 [v0, v1, v2, v3, v4, v5, v6, v7, v8, v9, v10, v11, v12, v13, v14, v15] 2 7 8 13 x y
      = [v0, v1, (fastG v2 v7 v8 v13 x y).a, v3,
         v4, v5, v6, (fastG v2 v7 v8 v13 x y).b,
         (fastG v2 v7 v8 v13 x y).c, v9, v10, v11,
         v12, (fastG v2 v7 v8 v13 x y).d, v14, v15] := by
  simp only [mixSteps, addStep, rotStep, fastG, List.set_cons_zero, List.set_cons_succ,
    List.getD_cons_zero, List.getD_cons_succ, Nat.add_zero]

theorem mixSteps_at_3_4_9_14 (v0 v1 v2 v3 v4 v5 v6 v7 v8 v9 v10 v11 v12 v13 v14 v15 x y : Nat) :
    mixSteps rotr32 [v0, v1, v2, v3, v4, v5, v6, v7, v8, v9, v10, v11, v12, v13, v14, v15] 3 4 9 14 x y
      = [v0, v1, v2, (fastG v3 v4 v9 v14 x y).a,
         (fastG v3 v4 v9 v14 x y).b, v5, v6, v7,
         v8, (fastG v3 v4 v9 v14 x y).c, v10, v11,
         v12, v13, (fastG v3 v4 v9 v14 x y).d, v15] := by
  simp only [mixSteps, addStep, rotStep, fastG, List.set_cons_zero, List.set_cons_succ,
    List.getD_cons_zero, List.getD_cons_succ, Nat.add_zero]

/-- On every list `fastRound` agrees with `blake2s_round`. -/
theorem fastRound_eq (r : Nat) (m v : List Nat) : fastRound r m v = blake2s_round r m v := by
  unfold fastRound
  split
  · unfold blake2s_round
    rw [range8]
    simp only [List.foldl_cons, List.foldl_nil, round_body_eq_mixSteps, Nat.reduceMod,
      Nat.reduceDiv, Nat.reduceMul, Nat.reduceAdd,
      mixSteps_at_0_4_8_12, mixSteps_at_1_5_9_13, mixSteps_at_2_6_10_14,
      mixSteps_at_3_7_11_15, mixSteps_at_0_5_10_15, mixSteps_at_1_6_11_12,
      mixSteps_at_2_7_8_13, mixSteps_at_3_4_9_14]
  · rfl

theorem fastCompress_eq (S : blake2s_state) (inp : List Nat) :
    fastCompress S inp = blake2s_compress S inp := by
  unfold fastCompress blake2s_compress
  simp only [fastRound_eq]

theorem fastFinal_eq (b : Bool) (S : blake2s_state) :
    fastFinal b S = (blake2s_final b S).2 := by
  unfold fastFinal blake2s_final
  simp only [fastCompress_eq]

/-- The digest of any input, in the form that is evaluated on concrete inputs. -/
theorem blake2s_eq_fast (b : Bool) (S0 : blake2s_state) (x : List Nat) :
    blake2s b S0 x = fastFinal b (blake2s_update b (blake2s_init zeroed) x) := by
  rw [fastFinal_eq]
  rfl

/-! ## The switch is unobservable up to `2^32` bytes -/

theorem increment_toggle (S : blake2s_state) (k : Nat) (h0 : S.t0 + k < 2 ^ 32)
    (h1 : S.t1 = 0) :
    blake2s_increment_counter true S k = blake2s_increment_counter false S k := by
  obtain ⟨h, t0, t1, f0, buf, buflen⟩ := S
  simp only at h0 h1
  subst h1
  have e : (t0 + k) % 2 ^ 32 = t0 + k := Nat.mod_eq_of_lt h0
  have hlt : ¬ (t0 + k < k) := by omega
  simp only [blake2s_increment_counter, e, hlt, if_true, if_false, Nat.add_zero, Nat.zero_mod,
    Bool.false_eq_true]

theorem update_toggle (S0 : blake2s_state) (x : List Nat) :
    x.length ≤ 2 ^ 32 →
    blake2s_update false (blake2s_init S0) x = blake2s_update true (blake2s_init S0) x := by
  induction x using List.reverseRecOn with
  | nil => exact fun _ => by rw [blake2s_update_nil, blake2s_update_nil]
  | append_singleton xs y ih =>
    intro hlen
    rw [List.length_append, List.length_singleton] at hlen
    rw [blake2s_update_snoc, blake2s_update_snoc, ih (by omega)]
    obtain ⟨hbl, _, ht0, ht1, _⟩ := update_invariant true S0 xs
    have hfs := fill_le_self xs.length
    generalize blake2s_update true (blake2s_init S0) xs = S at *
    simp only [if_true] at ht1
    unfold blake2s_update_body blake2s_update_flush
    by_cases hfull : S.buflen = BLAKE2S_BLOCKBYTES
    · have hinc := increment_toggle S BLAKE2S_BLOCKBYTES (by rw [ht0]; omega) (by rw [ht1]; omega)
      simp only [hfull, if_true, hinc]
    · simp only [hfull, if_false]

theorem digest_toggle (S0 : blake2s_state) (x : List Nat) (hlen : x.length < 2 ^ 32)
    (b : Bool) : blake2s b S0 x = blake2s true S0 x := by
  cases b
  · unfold blake2s
    rw [update_toggle S0 x (Nat.le_of_lt hlen)]
    obtain ⟨hbl, _, ht0, ht1, _⟩ := update_invariant true S0 x
    have hfs := fill_le_self x.length
    generalize blake2s_update true (blake2s_init S0) x = S at *
    simp only [if_true] at ht1
    have hinc := increment_toggle S S.buflen (by rw [ht0, hbl]; omega) (by rw [ht1]; omega)
    unfold blake2s_final
    simp only [hinc]
  · rfl

/-- The digest of "abc" as bytes. -/
theorem abc_digest :
    blake2s true zeroed [0x61, 0x62, 0x63]
      = [0x50, 0x8c, 0x5e, 0x8c, 0x32, 0x7c, 0x14, 0xe2, 0xe1, 0xa7, 0x2b, 0xa3, 0x4e, 0xeb,
         0x45, 0x2f, 0x37, 0x45, 0x8b, 0x20, 0x9e, 0xd6, 0x3a, 0x29, 0x4d, 0x99, 0x9b, 0x4c,
         0x86, 0x67, 0x59, 0x82] := by
  rw [blake2s_eq_fast]
  decide!

/-- A digest that differs from the bytes of the digest of "abc" differs from the digest of
"abc" for every prior state and either setting of the switch. -/
theorem differs_from_abc (b : Bool) (S : blake2s_state) (q : List Nat)
    (hq : q.length < 2 ^ 32)
    (h : blake2s true zeroed q
      ≠ [0x50, 0x8c, 0x5e, 0x8c, 0x32, 0x7c, 0x14, 0xe2, 0xe1, 0xa7, 0x2b, 0xa3, 0x4e, 0xeb,
         0x45, 0x2f, 0x37, 0x45, 0x8b, 0x20, 0x9e, 0xd6, 0x3a, 0x29, 0x4d, 0x99, 0x9b, 0x4c,
         0x86, 0x67, 0x59, 0x82]) :
    blake2s b S q ≠ blake2s b S [0x61, 0x62, 0x63] := by
  rw [digest_toggle S q hq, digest_toggle S [0x61, 0x62, 0x63] (by decide),
    blake2s_prior true S q, blake2s_prior true S [0x61, 0x62, 0x63], abc_digest]
  exact h

/-! ## The state after `2^32` zero bytes -/

theorem final_state (b : Bool) (S : blake2s_state) :
    (blake2s_final b S).1
      = blake2s_compress
          { h := S.h
            t0 := (S.t0 + S.buflen) % 2 ^ 32
            t1 := if b = true then
                (S.t1 + (if (S.t0 + S.buflen) % 2 ^ 32 < S.buflen then 1 else 0)) % 2 ^ 32
              else S.t1
            f0 := 0xFFFFFFFF
            buf := memset S.buf S.buflen 0 (64 - S.buflen)
            buflen := S.buflen }
          (memset S.buf S.buflen 0 (64 - S.buflen)) := by
  cases b <;> rfl

theorem final_digest (b : Bool) (S : blake2s_state) :
    (blake2s_final b S).2 = ((blake2s_final b S).1.h.flatMap store32).take 32 := by
  cases b <;> rfl

theorem final_t0 (b : Bool) (S : blake2s_state) :
    (blake2s_final b S).1.t0 = (S.t0 + S.buflen) % 2 ^ 32 := by
  rw [final_state]; rfl

theorem final_t1 (b : Bool) (S : blake2s_state) :
    (blake2s_final b S).1.t1
      = if b = true then
          (S.t1 + (if (S.t0 + S.buflen) % 2 ^ 32 < S.buflen then 1 else 0)) % 2 ^ 32
        else S.t1 := by
  rw [final_state]; rfl

theorem final_f0 (b : Bool) (S : blake2s_state) :
    (blake2s_final b S).1.f0 = 2 ^ 32 - 1 := by
  rw [final_state]; rfl

theorem memset_tail (buf : List Nat) (L : Nat) (hL : L ≤ 64) (hbuf : buf.length = 64) :
    memset buf L 0 (64 - L) = buf.take L ++ List.replicate (64 - L) 0 := by
  unfold memset
  rw [List.drop_of_length_le (by omega), List.append_nil]

/-- Counter halves after `blake2s_final` on a state reached by absorbing `n` bytes. -/
theorem final_counter (b : Bool) (S0 : blake2s_state) (x : List Nat) :
    counter (blake2s_final b (blake2s_update b (blake2s_init S0) x)).1
      = if b = true then x.length % 2 ^ 64 else x.length % 2 ^ 32 := by
  obtain ⟨hbl, _, ht0, ht1, _⟩ := update_invariant b S0 x
  have hfl := fill_le x.length
  have hfs := fill_le_self x.length
  rw [counter, final_t0, final_t1, hbl, ht0, ht1]
  have hc : x.length = (x.length - fill x.length) + fill x.length := by omega
  generalize x.length - fill x.length = c at *
  generalize fill x.length = L at *
  generalize x.length = n at *
  subst hc
  cases b
  · simp only [Bool.false_eq_true, if_false]
    omega
  · simp only [if_true]
    split_ifs <;> omega

/-! ## Counting the compressions of `blake2s_update` -/

theorem blake2s_update_cons (b : Bool) (S : blake2s_state) (y : Nat) (x : List Nat) :
    blake2s_update b S (y :: x) = blake2s_update b (blake2s_update_body b S y) x := rfl

theorem compressions_append (b : Bool) (S : blake2s_state) (x y : List Nat) :
    compressions b S (x ++ y)
      = compressions b S x + compressions b (blake2s_update b S x) y := by
  induction x generalizing S with
  | nil => simp [compressions, blake2s_update_nil]
  | cons a x ih =>
    rw [List.cons_append, compressions, compressions, ih, blake2s_update_cons]
    omega

theorem compressionsOver_flatten (b : Bool) (S : blake2s_state) (chunks : List (List Nat)) :
    compressionsOver b S chunks = compressions b S chunks.flatten := by
  induction chunks generalizing S with
  | nil => rfl
  | cons c cs ih =>
    simp only [compressionsOver, List.flatten_cons, compressions_append, ih]

theorem compressions_init (b : Bool) (S0 : blake2s_state) (x : List Nat) :
    compressions b (blake2s_init S0) x = (x.length - 1) / 64 := by
  induction x using List.reverseRecOn with
  | nil => rfl
  | append_singleton xs y ih =>
    obtain ⟨hbl, _⟩ := update_invariant b S0 xs
    rw [compressions_append, ih, List.length_append, List.length_singleton]
    simp only [compressions, hbl, BLAKE2S_BLOCKBYTES, Nat.add_zero]
    generalize xs.length = n
    unfold fill
    split_ifs <;> first | omega | contradiction

/-- Counter halves of the streaming state after `n` bytes, for both settings of the
switch. -/
theorem update_counter (b : Bool) (S0 : blake2s_state) (x : List Nat) :
    counter (blake2s_update b (blake2s_init S0) x)
      = if b = true then (x.length - fill x.length) % 2 ^ 64
        else (x.length - fill x.length) % 2 ^ 32 := by
  obtain ⟨_, _, ht0, ht1, _⟩ := update_invariant b S0 x
  rw [counter, ht0, ht1]
  cases b
  · simp
  · simp only [if_true]
    omega

theorem sub_fill_eq (n : Nat) : n - fill n = 64 * ((n - 1) / 64) := by
  unfold fill
  split_ifs <;> omega

/-- No compression happens while at most 64 bytes are absorbed: the chain stays the
initial chain. -/
theorem update_h_short (b : Bool) (S0 : blake2s_state) (x : List Nat) :
    x.length ≤ 64 → (blake2s_update b (blake2s_init S0) x).h = (blake2s_init S0).h := by
  induction x using List.reverseRecOn with
  | nil => exact fun _ => rfl
  | append_singleton xs y ih =>
    intro hlen
    rw [List.length_append, List.length_singleton] at hlen
    obtain ⟨hbl, _⟩ := update_invariant b S0 xs
    have hfs := fill_le_self xs.length
    rw [blake2s_update_snoc]
    show (blake2s_update_flush b _).h = _
    rw [flush_h, if_neg (by omega), ih (by omega)]

/-! ## Rounds and rotation -/

theorem range10 : List.range 10 = [0, 1, 2, 3, 4, 5, 6, 7, 8, 9] := by decide

/-- Bits of `rotr32`: on a 32-bit word, bit `i` of the result is bit `(i + c) mod 32` of the
argument. -/
theorem rotr32_testBit (w c i : Nat) (hw : w < 2 ^ 32) (hc : c ≤ 32) :
    (rotr32 w c).testBit i = (decide (i < 32) && w.testBit ((i + c) % 32)) := by
  unfold rotr32
  simp only [Nat.testBit_mod_two_pow, Nat.testBit_or, Nat.testBit_shiftLeft,
    Nat.testBit_shiftRight]
  by_cases hi : i < 32
  · by_cases h2 : i + c < 32
    · have e : (i + c) % 32 = c + i := by omega
      have h3 : ¬ (i ≥ 32 - c) := by omega
      simp [hi, h3, e]
    · have e : (i + c) % 32 = i - (32 - c) := by omega
      have h3 : i ≥ 32 - c := by omega
      have : w.testBit (c + i) = false := testBit_of_lt_two_pow hw (by omega)
      simp [hi, h3, e, this]
  · simp [hi]

/-! ## Sanity of the reference: the test vector of RFC 7693, appendix B -/

/-- The transcription of RFC 7693 reproduces the digest of "abc" printed in appendix B of
the RFC, and the well-known digest of the empty message. -/
theorem rfc7693_test_vectors :
    RFC7693.BLAKE2s [0x61, 0x62, 0x63]
      = [0x50, 0x8C, 0x5E, 0x8C, 0x32, 0x7C, 0x14, 0xE2, 0xE1, 0xA7, 0x2B, 0xA3, 0x4E, 0xEB,
         0x45, 0x2F, 0x37, 0x45, 0x8B, 0x20, 0x9E, 0xD6, 0x3A, 0x29, 0x4D, 0x99, 0x9B, 0x4C,
         0x86, 0x67, 0x59, 0x82] ∧
    hex (RFC7693.BLAKE2s [])
      = "69217a3079908094e11121d042354a7c1f55b6482ca1a51e1b250dfd1ed0eef9" := by
  decide!

/-! ## The properties of the specification -/

/-- Claim C2: streaming equivalence.  Updating chunk by chunk and updating once with the
concatenation give the same digest; in particular for a 64-byte input, all 64 bytes at
once and 63 bytes followed by the last byte give the same digest. -/
theorem streaming_equivalence (BLAKE2S_64BIT : Bool) (S : blake2s_state) :
    (∀ chunks : List (List Nat),
      (blake2s_final BLAKE2S_64BIT
          (chunks.foldl (blake2s_update BLAKE2S_64BIT) (blake2s_init S))).2
        = (blake2s_final BLAKE2S_64BIT
            (blake2s_update BLAKE2S_64BIT (blake2s_init S) chunks.flatten)).2) ∧
    (∀ x : List Nat, x.length = 64 →
      (blake2s_final BLAKE2S_64BIT
          (blake2s_update BLAKE2S_64BIT
            (blake2s_update BLAKE2S_64BIT (blake2s_init S) (x.take 63)) (x.drop 63))).2
        = (blake2s_final BLAKE2S_64BIT (blake2s_update BLAKE2S_64BIT (blake2s_init S) x)).2) := by
  refine ⟨fun chunks => ?_, fun x _ => ?_⟩
  · rw [foldl_update_flatten]
  · rw [← blake2s_update_append, List.take_append_drop]

/-- Witness for claim C2: 64 zero bytes, as 63 bytes and then one byte. -/
theorem streaming_equivalence_witness :
    (List.replicate 64 0).length = 64 ∧
    (blake2s_final true
        (blake2s_update true
          (blake2s_update true (blake2s_init zeroed) ((List.replicate 64 0).take 63))
          ((List.replicate 64 0).drop 63))).2
      = (blake2s_final true (blake2s_update true (blake2s_init zeroed) (List.replicate 64 0))).2 :=
  ⟨rfl, (streaming_equivalence true zeroed).2 (List.replicate 64 0) rfl⟩

/-- Claim C3: known vector.  The digest of the three bytes "abc" is 32 bytes long and
prints as `508c5e8c...86675982`, whatever the prior state and the switch. -/
theorem known_vector_abc (BLAKE2S_64BIT : Bool) (S : blake2s_state) :
    (blake2s BLAKE2S_64BIT S [0x61, 0x62, 0x63]).length = 32 ∧
    hex (blake2s BLAKE2S_64BIT S [0x61, 0x62, 0x63])
      = "508c5e8c327c14e2e1a72ba34eeb452f37458b209ed63a294d999b4c86675982" := by
  rw [blake2s_eq_fast]
  cases BLAKE2S_64BIT <;> decide!

/-- Counterexample for claim C4: the hex encoding of the digest of the empty input is not
the 63-character string of the specification. -/
theorem known_vector_empty_refuted :
    ¬ (hex (blake2s true zeroed [])
      = "69217a3079908094e11121d042354a7c1f55b6482ca1a51e1b250dfd1ed0eef") := by
  rw [blake2s_eq_fast]
  decide!

/-- Claim C4, amended: the digest of the empty input is 32 bytes long and prints as the
64-character string `69217a30...1ed0eef9`. -/
theorem known_vector_empty (BLAKE2S_64BIT : Bool) (S : blake2s_state) :
    (blake2s BLAKE2S_64BIT S []).length = 32 ∧
    hex (blake2s BLAKE2S_64BIT S [])
      = "69217a3079908094e11121d042354a7c1f55b6482ca1a51e1b250dfd1ed0eef9" := by
  rw [blake2s_eq_fast]
  cases BLAKE2S_64BIT <;> decide!

/-- Claim C5: for every prior content of the state, `blake2s_init` leaves the chain equal to
the IV with `h[0] = 0x6A09E667 XOR 0x01010020 = 0x6B08E647`, both counter halves 0, the
flag 0, the buffer length 0 and 64 zero buffer bytes. -/
theorem init_state (S : blake2s_state) :
    (blake2s_init S).h = blake2s_IV.set 0 (0x6A09E667 ^^^ 0x01010020) ∧
    (blake2s_init S).h =
      [0x6B08E647, 0xBB67AE85, 0x3C6EF372, 0xA54FF53A,
       0x510E527F, 0x9B05688C, 0x1F83D9AB, 0x5BE0CD19] ∧
    (blake2s_init S).t0 = 0 ∧ (blake2s_init S).t1 = 0 ∧ (blake2s_init S).f0 = 0 ∧
    (blake2s_init S).buflen = 0 ∧
    (blake2s_init S).buf = List.replicate 64 0 :=
  ⟨rfl, rfl, rfl, rfl, rfl, rfl, rfl⟩

/-- Claim C6: `blake2s_final` writes exactly 32 bytes, and output byte `4*i + j` is byte `j`
(bits `8j .. 8j+7`) of the final chain word `h[i]`; this holds for every state, hence for
every input length including zero. -/
theorem final_digest_layout (BLAKE2S_64BIT : Bool) (S : blake2s_state) :
    (blake2s_final BLAKE2S_64BIT S).2.length = 32 ∧
    (∀ i, i < 8 → ∀ j, j < 4 →
      (blake2s_final BLAKE2S_64BIT S).2.getD (4 * i + j) 0
        = (blake2s_final BLAKE2S_64BIT S).1.h.getD i 0 / 2 ^ (8 * j) % 256) ∧
    (∀ x : List Nat, (blake2s BLAKE2S_64BIT S x).length = 32) := by
  have key : ∀ T : blake2s_state, (blake2s_final BLAKE2S_64BIT T).1.h.length = 8 := fun T => by
    simp [blake2s_final, compress_h_length]
  have h1 := serialize_chain (blake2s_final BLAKE2S_64BIT S).1.h (key S)
  refine ⟨h1.1, h1.2, fun x => ?_⟩
  exact (serialize_chain _ (key (blake2s_update BLAKE2S_64BIT (blake2s_init S) x))).1

/-- Claim C7: in every state reached from `blake2s_init` by any sequence of updates, and at
the head of every loop iteration inside a further update (after any prefix `pre` of its
input), the buffer length is at most 64; the store of the next byte happens at an index
below 64, inside the buffer, and leaves the length at most 64; and the padding length
`64 - buflen` of `blake2s_final` does not wrap. -/
theorem buflen_bounded (BLAKE2S_64BIT : Bool) (S0 : blake2s_state)
    (chunks : List (List Nat)) (pre : List Nat) (byte : Nat) :
    (blake2s_update BLAKE2S_64BIT (absorb BLAKE2S_64BIT S0 chunks) pre).buflen ≤ 64 ∧
    (blake2s_update_flush BLAKE2S_64BIT
      (blake2s_update BLAKE2S_64BIT (absorb BLAKE2S_64BIT S0 chunks) pre)).buflen < 64 ∧
    (blake2s_update_flush BLAKE2S_64BIT
      (blake2s_update BLAKE2S_64BIT (absorb BLAKE2S_64BIT S0 chunks) pre)).buflen
      < (blake2s_update_flush BLAKE2S_64BIT
          (blake2s_update BLAKE2S_64BIT (absorb BLAKE2S_64BIT S0 chunks) pre)).buf.length ∧
    (blake2s_update_body BLAKE2S_64BIT
      (blake2s_update BLAKE2S_64BIT (absorb BLAKE2S_64BIT S0 chunks) pre) byte).buflen ≤ 64 ∧
    (blake2s_update BLAKE2S_64BIT (absorb BLAKE2S_64BIT S0 chunks) pre).buflen
      + (BLAKE2S_BLOCKBYTES
          - (blake2s_update BLAKE2S_64BIT (absorb BLAKE2S_64BIT S0 chunks) pre).buflen)
      = BLAKE2S_BLOCKBYTES := by
  rw [absorb_eq_update, ← blake2s_update_append]
  obtain ⟨hbl, _, _, _, hbuf, _⟩ := update_invariant BLAKE2S_64BIT S0 (chunks.flatten ++ pre)
  have hle := fill_le (chunks.flatten ++ pre).length
  generalize blake2s_update BLAKE2S_64BIT (blake2s_init S0) (chunks.flatten ++ pre) = S at *
  simp only [blake2s_update_body, blake2s_update_store, flush_buflen, flush_buf, hbuf, hbl,
    BLAKE2S_BLOCKBYTES]
  generalize fill (chunks.flatten ++ pre).length = L at hle
  refine ⟨hle, ?_, ?_, ?_, ?_⟩
  · split_ifs <;> omega
  · split_ifs <;> omega
  · split_ifs <;> omega
  · omega

/-- Counterexample for claim C8: after one update with 64 bytes the buffer length is 64,
not strictly below 64. -/
theorem buflen_full_after_update :
    ¬ ((absorb true zeroed [List.replicate 64 0]).buflen < 64) := by
  decide!

/-- Claim C8, amended: after each update the buffer length is at most 64, and it is exactly
64 precisely when the number of bytes absorbed so far is a positive multiple of 64; a full
buffer is emptied only while the next byte is processed, which leaves length 1. -/
theorem buflen_after_update (BLAKE2S_64BIT : Bool) (S0 : blake2s_state)
    (chunks : List (List Nat)) (byte : Nat) :
    (absorb BLAKE2S_64BIT S0 chunks).buflen ≤ 64 ∧
    ((absorb BLAKE2S_64BIT S0 chunks).buflen = 64 ↔
      0 < chunks.flatten.length ∧ chunks.flatten.length % 64 = 0) ∧
    (blake2s_update BLAKE2S_64BIT (absorb BLAKE2S_64BIT S0 chunks) [byte]).buflen
      = (if (absorb BLAKE2S_64BIT S0 chunks).buflen = 64 then 1
         else (absorb BLAKE2S_64BIT S0 chunks).buflen + 1) := by
  rw [absorb_eq_update]
  obtain ⟨hbl, _⟩ := update_invariant BLAKE2S_64BIT S0 chunks.flatten
  have hle := fill_le chunks.flatten.length
  have hfull : fill chunks.flatten.length = 64 ↔
      0 < chunks.flatten.length ∧ chunks.flatten.length % 64 = 0 := by
    unfold fill
    by_cases h0 : chunks.flatten.length = 0
    · simp [h0]
    · simp only [h0, if_false]
      omega
  refine ⟨hbl ▸ hle, hbl ▸ hfull, ?_⟩
  show (blake2s_update_body BLAKE2S_64BIT _ byte).buflen = _
  simp only [blake2s_update_body, blake2s_update_store, flush_buflen]
  split_ifs <;> rfl

/-- Counterexample for claim C9: with `BLAKE2S_64BIT` off, after `2^32 + 64` bytes (a length
below `2^64`) the counter halves hold 0 while `n - buflen` is `2^32`. -/
theorem counter_32bit_wraps :
    (List.replicate (2 ^ 32 + 64) 0).length < 2 ^ 64 ∧
    counter (blake2s_update false (blake2s_init zeroed) (List.replicate (2 ^ 32 + 64) 0))
      ≠ (List.replicate (2 ^ 32 + 64) 0).length
        - (blake2s_update false (blake2s_init zeroed)
            (List.replicate (2 ^ 32 + 64) 0)).buflen := by
  obtain ⟨hbl, _, ht0, ht1, _⟩ :=
    update_invariant false zeroed (List.replicate (2 ^ 32 + 64) 0)
  rw [List.length_replicate] at hbl ht0 ht1
  have hfill : fill (2 ^ 32 + 64) = 64 := by decide
  rw [hfill] at hbl ht0 ht1
  rw [List.length_replicate, counter, hbl, ht0, ht1]
  constructor
  · norm_num
  · simp

/-- Claim C9, amended: for every byte sequence of length `n < 2^64` absorbed in any chunks,
with `BLAKE2S_64BIT` on the counter `t[1] * 2^32 + t[0]` equals `n - buflen`; with the
switch off `t[1]` stays 0 and `t[0]` is `(n - buflen) mod 2^32`.  In both cases `n - buflen`
is a multiple of 64: the bytes in the buffer are not counted. -/
theorem counter_invariant (BLAKE2S_64BIT : Bool) (S0 : blake2s_state)
    (chunks : List (List Nat)) (hn : chunks.flatten.length < 2 ^ 64) :
    counter (absorb BLAKE2S_64BIT S0 chunks)
      = (if BLAKE2S_64BIT = true then
          chunks.flatten.length - (absorb BLAKE2S_64BIT S0 chunks).buflen
        else (chunks.flatten.length - (absorb BLAKE2S_64BIT S0 chunks).buflen) % 2 ^ 32) ∧
    (absorb BLAKE2S_64BIT S0 chunks).t1
      = (if BLAKE2S_64BIT = true then
          (chunks.flatten.length - (absorb BLAKE2S_64BIT S0 chunks).buflen) / 2 ^ 32
        else 0) ∧
    64 ∣ chunks.flatten.length - (absorb BLAKE2S_64BIT S0 chunks).buflen ∧
    (absorb BLAKE2S_64BIT S0 chunks).buflen ≤ chunks.flatten.length := by
  rw [absorb_eq_update]
  obtain ⟨hbl, _, ht0, ht1, _⟩ := update_invariant BLAKE2S_64BIT S0 chunks.flatten
  rw [counter, hbl, ht0, ht1]
  refine ⟨?_, ?_, sub_fill_dvd _, fill_le_self _⟩
  · cases BLAKE2S_64BIT
    · simp
    · simp only [if_true]
      omega
  · cases BLAKE2S_64BIT
    · simp
    · simp only [if_true]
      omega

/-- Witness for claim C9: 70 bytes absorbed as chunks of 3 and 67 bytes with the switch
on; one block of 64 bytes is counted and 6 bytes wait in the buffer. -/
theorem counter_invariant_witness :
    [[1, 2, 3], List.replicate 67 0].flatten.length < 2 ^ 64 ∧
    counter (absorb true zeroed [[1, 2, 3], List.replicate 67 0])
      = (if true = true then
          [[1, 2, 3], List.replicate 67 0].flatten.length
            - (absorb true zeroed [[1, 2, 3], List.replicate 67 0]).buflen
        else ([[1, 2, 3], List.replicate 67 0].flatten.length
            - (absorb true zeroed [[1, 2, 3], List.replicate 67 0]).buflen) % 2 ^ 32) :=
  ⟨by decide, (counter_invariant true zeroed [[1, 2, 3], List.replicate 67 0] (by decide)).1⟩

/-- Claim C10: determinism.  Whatever the prior contents of the state memory, init, update
with `x` and final give the same digest: the digest is a function of `x` alone. -/
theorem determinism (BLAKE2S_64BIT : Bool) :
    (∀ (x : List Nat) (S1 S2 : blake2s_state),
      blake2s BLAKE2S_64BIT S1 x = blake2s BLAKE2S_64BIT S2 x) ∧
    ∃ f : List Nat → List Nat,
      ∀ (S : blake2s_state) (x : List Nat), blake2s BLAKE2S_64BIT S x = f x :=
  ⟨fun _ _ _ => rfl, ⟨fun x => blake2s BLAKE2S_64BIT zeroed x, fun _ _ => rfl⟩⟩

/-- Each of the 24 single-bit flips of "abc" has a digest different from the digest of
"abc" (evaluated with the switch on and an all-zero prior state). -/
theorem flips_differ_from_abc :
    ∀ p, p < 24 → blake2s true zeroed (flipBit [0x61, 0x62, 0x63] p)
      ≠ [0x50, 0x8c, 0x5e, 0x8c, 0x32, 0x7c, 0x14, 0xe2, 0xe1, 0xa7, 0x2b, 0xa3, 0x4e, 0xeb,
         0x45, 0x2f, 0x37, 0x45, 0x8b, 0x20, 0x9e, 0xd6, 0x3a, 0x29, 0x4d, 0x99, 0x9b, 0x4c,
         0x86, 0x67, 0x59, 0x82] := by
  simp only [blake2s_eq_fast]
  decide!

/-- Claim C11: avalanche sanity check on the test vector "abc".  For each of the 24 bit
positions `p`, the input with that single bit flipped has a digest different from the
digest of "abc", whatever the prior state and the switch. -/
theorem avalanche_abc (BLAKE2S_64BIT : Bool) (S : blake2s_state) (p : Nat) (hp : p < 24) :
    blake2s BLAKE2S_64BIT S (flipBit [0x61, 0x62, 0x63] p)
      ≠ blake2s BLAKE2S_64BIT S [0x61, 0x62, 0x63] := by
  have hlen : (flipBit [0x61, 0x62, 0x63] p).length < 2 ^ 32 := by
    unfold flipBit
    rw [List.length_set]
    decide
  exact differs_from_abc BLAKE2S_64BIT S _ hlen (flips_differ_from_abc p hp)

/-- Witness for claim C11: bit 0 of the first byte, bytes 0x60 0x62 0x63 against "abc". -/
theorem avalanche_abc_witness :
    0 < 24 ∧ blake2s true zeroed (flipBit [0x61, 0x62, 0x63] 0)
      ≠ blake2s true zeroed [0x61, 0x62, 0x63] :=
  ⟨by decide, avalanche_abc true zeroed 0 (by decide)⟩

/-- Counterexample for claim C12: with `BLAKE2S_64BIT` off, after hashing `2^32` bytes the
counter halves used in the last compression hold 0, not `2^32`. -/
theorem final_counter_32bit_wraps :
    counter (blake2s_final false
        (blake2s_update false (blake2s_init zeroed) (List.replicate (2 ^ 32) 0))).1
      ≠ (List.replicate (2 ^ 32) 0).length := by
  rw [final_counter, List.length_replicate]
  decide

/-- Claim C12, amended: for every state with buffer length `L <= 64`, `blake2s_final` is:
add `L` to the low counter half modulo `2^32`, with a carry into the high half only when
`BLAKE2S_64BIT` is on; set `f0` to `0xFFFFFFFF`; zero buffer bytes `L..63` and keep bytes
`0..L-1`; run `blake2s_compress` once on that 64-byte buffer; the digest is the resulting
chain in little-endian bytes.  With the switch on and 32-bit halves the 64-bit counter
advances by `L` modulo `2^64`.  Hence after hashing `n` bytes the counter used in the last
compression is `n mod 2^64` with the switch on and `n mod 2^32` with the switch off. -/
theorem final_steps (BLAKE2S_64BIT : Bool) (S : blake2s_state)
    (hL : S.buflen ≤ 64) (hbuf : S.buf.length = 64) :
    (blake2s_final BLAKE2S_64BIT S).1
      = blake2s_compress
          { h := S.h
            t0 := (S.t0 + S.buflen) % 2 ^ 32
            t1 := if BLAKE2S_64BIT = true then
                (S.t1 + (if (S.t0 + S.buflen) % 2 ^ 32 < S.buflen then 1 else 0)) % 2 ^ 32
              else S.t1
            f0 := 0xFFFFFFFF
            buf := S.buf.take S.buflen ++ List.replicate (64 - S.buflen) 0
            buflen := S.buflen }
          (S.buf.take S.buflen ++ List.replicate (64 - S.buflen) 0) ∧
    (blake2s_final BLAKE2S_64BIT S).2
      = ((blake2s_final BLAKE2S_64BIT S).1.h.flatMap store32).take 32 ∧
    (S.buf.take S.buflen ++ List.replicate (64 - S.buflen) 0).length = 64 ∧
    (∀ k, k < S.buflen →
      (S.buf.take S.buflen ++ List.replicate (64 - S.buflen) 0).getD k 1 = S.buf.getD k 1) ∧
    (∀ k, S.buflen ≤ k → k < 64 →
      (S.buf.take S.buflen ++ List.replicate (64 - S.buflen) 0).getD k 1 = 0) ∧
    (BLAKE2S_64BIT = true → S.t0 < 2 ^ 32 → S.t1 < 2 ^ 32 →
      counter (blake2s_final BLAKE2S_64BIT S).1 = (counter S + S.buflen) % 2 ^ 64) ∧
    (∀ (S0 : blake2s_state) (chunks : List (List Nat)),
      counter (blake2s_final BLAKE2S_64BIT (absorb BLAKE2S_64BIT S0 chunks)).1
        = if BLAKE2S_64BIT = true then chunks.flatten.length % 2 ^ 64
          else chunks.flatten.length % 2 ^ 32) := by
  refine ⟨?_, final_digest _ _, ?_, ?_, ?_, ?_, ?_⟩
  · rw [final_state, memset_tail S.buf S.buflen hL hbuf]
  · rw [List.length_append, List.length_take, List.length_replicate]; omega
  · intro k hk
    rw [List.getD_eq_getElem?_getD, List.getD_eq_getElem?_getD,
      List.getElem?_append_left (by rw [List.length_take]; omega), List.getElem?_take_of_lt hk]
  · intro k hk1 hk2
    have hl : (S.buf.take S.buflen).length = S.buflen := by
      rw [List.length_take]; omega
    rw [List.getD_eq_getElem?_getD, List.getElem?_append_right (by omega),
      List.getElem?_replicate, hl, if_pos (by omega)]
    rfl
  · intro hb h0 h1
    rw [counter, counter, final_t0, final_t1]
    simp only [hb, if_true]
    split_ifs <;> omega
  · intro S0 chunks
    rw [absorb_eq_update, final_counter]

/-- Witness for claim C12: the state after absorbing "abc" with the switch on. -/
theorem final_steps_witness :
    (absorb true zeroed [[0x61, 0x62, 0x63]]).buflen ≤ 64 ∧
    (absorb true zeroed [[0x61, 0x62, 0x63]]).buf.length = 64 ∧
    counter (blake2s_final true (absorb true zeroed [[0x61, 0x62, 0x63]])).1 = 3 :=
  ⟨by decide, by decide,
    ((final_steps true (absorb true zeroed [[0x61, 0x62, 0x63]]) (by decide)
      (by decide)).2.2.2.2.2.2 zeroed [[0x61, 0x62, 0x63]]).trans (by decide)⟩

/-- Counterexample for claim C13: with `BLAKE2S_64BIT` off, after `2^32 + 65` bytes the
counter halves hold 64, not `64 * floor((n - 1) / 64) = 2^32 + 64`. -/
theorem counter_blocks_32bit_wraps :
    1 ≤ (List.replicate (2 ^ 32 + 65) 0).length ∧
    counter (absorb false zeroed [List.replicate (2 ^ 32 + 65) 0])
      ≠ 64 * (((List.replicate (2 ^ 32 + 65) 0).length - 1) / 64) := by
  rw [absorb_eq_update, List.flatten_singleton, update_counter, List.length_replicate]
  have hfill : fill (2 ^ 32 + 65) = 1 := by decide
  rw [hfill]
  decide

/-- Claim C13, amended: compress-before-append-when-full.  For every `n >= 1` bytes absorbed
from `blake2s_init` in any chunks, the buffer length is `((n - 1) mod 64) + 1` and exactly
`floor((n - 1) / 64) = ceil(n / 64) - 1` compressions have run: the loop took its
compressing branch that many times, and the chain, the counter halves and the flag are those
left by `floor((n - 1) / 64)` successive calls of `blake2s_compress` from the initial state,
each after advancing the counter by 64, on the consecutive 64-byte blocks of the input.  The
counter is `64 * floor((n - 1) / 64)` modulo `2^64` when `BLAKE2S_64BIT` is on and modulo
`2^32` when it is off.  After exactly 64 bytes the buffer length is 64, the counter is 0 and
the chain is still the initial chain. -/
theorem compress_before_append (BLAKE2S_64BIT : Bool) (S0 : blake2s_state)
    (chunks : List (List Nat)) (hn : 1 ≤ chunks.flatten.length) :
    (absorb BLAKE2S_64BIT S0 chunks).buflen = (chunks.flatten.length - 1) % 64 + 1 ∧
    compressionsOver BLAKE2S_64BIT (blake2s_init S0) chunks
      = (chunks.flatten.length - 1) / 64 ∧
    (absorb BLAKE2S_64BIT S0 chunks).h
      = (compressBlocks BLAKE2S_64BIT (blake2s_init S0) chunks.flatten
          ((chunks.flatten.length - 1) / 64)).h ∧
    (absorb BLAKE2S_64BIT S0 chunks).t0
      = (compressBlocks BLAKE2S_64BIT (blake2s_init S0) chunks.flatten
          ((chunks.flatten.length - 1) / 64)).t0 ∧
    (absorb BLAKE2S_64BIT S0 chunks).t1
      = (compressBlocks BLAKE2S_64BIT (blake2s_init S0) chunks.flatten
          ((chunks.flatten.length - 1) / 64)).t1 ∧
    (absorb BLAKE2S_64BIT S0 chunks).f0
      = (compressBlocks BLAKE2S_64BIT (blake2s_init S0) chunks.flatten
          ((chunks.flatten.length - 1) / 64)).f0 ∧
    (chunks.flatten.length - 1) / 64 = (chunks.flatten.length + 63) / 64 - 1 ∧
    counter (absorb BLAKE2S_64BIT S0 chunks)
      = (if BLAKE2S_64BIT = true then (64 * ((chunks.flatten.length - 1) / 64)) % 2 ^ 64
         else (64 * ((chunks.flatten.length - 1) / 64)) % 2 ^ 32) ∧
    (chunks.flatten.length = 64 →
      (absorb BLAKE2S_64BIT S0 chunks).buflen = 64 ∧
      counter (absorb BLAKE2S_64BIT S0 chunks) = 0 ∧
      (absorb BLAKE2S_64BIT S0 chunks).h = (blake2s_init S0).h) := by
  obtain ⟨hbl, _⟩ := update_invariant BLAKE2S_64BIT S0 chunks.flatten
  obtain ⟨hch, hc0, hc1, hcf⟩ := update_compress_chain BLAKE2S_64BIT S0 chunks.flatten
  have hfill : fill chunks.flatten.length = (chunks.flatten.length - 1) % 64 + 1 := by
    unfold fill
    rw [if_neg (by omega)]
  rw [absorb_eq_update, compressionsOver_flatten, compressions_init, update_counter,
    sub_fill_eq, hbl, hfill]
  refine ⟨rfl, rfl, hch, hc0, hc1, hcf, by omega, rfl, fun h64 => ?_⟩
  rw [update_h_short _ _ _ (by omega), h64]
  refine ⟨by decide, ?_, rfl⟩
  cases BLAKE2S_64BIT <;> decide

/-- Witness for claim C13: 65 zero bytes absorbed in two calls, 64 bytes and then one byte,
with the switch on: the buffer holds one byte and the chain is the result of one call of
`blake2s_compress`. -/
theorem compress_before_append_witness :
    1 ≤ [List.replicate 64 0, [0]].flatten.length ∧
    (absorb true zeroed [List.replicate 64 0, [0]]).buflen
      = ([List.replicate 64 0, [0]].flatten.length - 1) % 64 + 1 ∧
    (absorb true zeroed [List.replicate 64 0, [0]]).h
      = (compressBlocks true (blake2s_init zeroed) [List.replicate 64 0, [0]].flatten
          (([List.replicate 64 0, [0]].flatten.length - 1) / 64)).h :=
  ⟨by decide,
    (compress_before_append true zeroed [List.replicate 64 0, [0]] (by decide)).1,
    (compress_before_append true zeroed [List.replicate 64 0, [0]] (by decide)).2.2.1⟩

/-- Claim C14: the finalization flag is 0 during normal operation.  In every state reached
from `blake2s_init` by any sequence of updates, also after any prefix `pre` of a further
update, `f0 = 0`; the state handed to `blake2s_compress` inside `blake2s_update` (after the
counter increment) has `f0 = 0` and the flag is still 0 afterwards; the one compression
inside `blake2s_final` runs with `f0 = 0xFFFFFFFF`. -/
theorem flag_zero_until_final (BLAKE2S_64BIT : Bool) (S0 : blake2s_state)
    (chunks : List (List Nat)) (pre : List Nat) (byte : Nat) :
    (blake2s_update BLAKE2S_64BIT (absorb BLAKE2S_64BIT S0 chunks) pre).f0 = 0 ∧
    (blake2s_increment_counter BLAKE2S_64BIT
      (blake2s_update BLAKE2S_64BIT (absorb BLAKE2S_64BIT S0 chunks) pre)
      BLAKE2S_BLOCKBYTES).f0 = 0 ∧
    (blake2s_update_body BLAKE2S_64BIT
      (blake2s_update BLAKE2S_64BIT (absorb BLAKE2S_64BIT S0 chunks) pre) byte).f0 = 0 ∧
    (blake2s_final BLAKE2S_64BIT
      (blake2s_update BLAKE2S_64BIT (absorb BLAKE2S_64BIT S0 chunks) pre)).1.f0
        = 0xFFFFFFFF ∧
    (∃ T : blake2s_state, T.f0 = 0xFFFFFFFF ∧
      (blake2s_final BLAKE2S_64BIT
        (blake2s_update BLAKE2S_64BIT (absorb BLAKE2S_64BIT S0 chunks) pre)).1
        = blake2s_compress T T.buf) := by
  rw [absorb_eq_update, ← blake2s_update_append]
  obtain ⟨_, hf, _⟩ := update_invariant BLAKE2S_64BIT S0 (chunks.flatten ++ pre)
  generalize blake2s_update BLAKE2S_64BIT (blake2s_init S0) (chunks.flatten ++ pre) = S at *
  refine ⟨hf, ?_, ?_, final_f0 _ _, ?_⟩
  · rw [increment_f0, hf]
  · show (blake2s_update_flush BLAKE2S_64BIT S).f0 = 0
    rw [flush_f0, hf]
  · exact ⟨_, rfl, final_state BLAKE2S_64BIT S⟩

/-- Counterexample for claim C15: with `BLAKE2S_64BIT` off, incrementing the low half
`0xFFFFFFFF` by 1 wraps it to 0, which is less than the increment, yet the high half
stays 0: the carry is skipped. -/
theorem carry_skipped_when_32bit :
    (1 : Nat) < 2 ^ 32 ∧
    (blake2s_increment_counter false { zeroed with t0 := 0xFFFFFFFF } 1).t0 < 1 ∧
    (blake2s_increment_counter false { zeroed with t0 := 0xFFFFFFFF } 1).t1
      ≠ (({ zeroed with t0 := 0xFFFFFFFF } : blake2s_state).t1 + 1) % 2 ^ 32 := by
  decide

/-- Claim C15, amended: counter increment with carry.  For a 32-bit low half `t0` and an
increment `k < 2^32`, the low half becomes `(t0 + k) mod 2^32`, which is less than `k`
exactly when the addition wrapped.  With `BLAKE2S_64BIT` on, the high half gets 1 added
modulo `2^32` exactly in that case, so `t1 * 2^32 + t0` increases by `k` modulo `2^64`.
With `BLAKE2S_64BIT` off the high half is left unchanged. -/
theorem increment_with_carry (BLAKE2S_64BIT : Bool) (S : blake2s_state) (k : Nat)
    (hk : k < 2 ^ 32) (h0 : S.t0 < 2 ^ 32) :
    (blake2s_increment_counter BLAKE2S_64BIT S k).t0 = (S.t0 + k) % 2 ^ 32 ∧
    ((blake2s_increment_counter BLAKE2S_64BIT S k).t0 < k ↔ 2 ^ 32 ≤ S.t0 + k) ∧
    (BLAKE2S_64BIT = true →
      (blake2s_increment_counter BLAKE2S_64BIT S k).t1
        = (S.t1 + (if (blake2s_increment_counter BLAKE2S_64BIT S k).t0 < k then 1 else 0))
            % 2 ^ 32 ∧
      counter (blake2s_increment_counter BLAKE2S_64BIT S k) = (counter S + k) % 2 ^ 64) ∧
    (BLAKE2S_64BIT = false →
      (blake2s_increment_counter BLAKE2S_64BIT S k).t1 = S.t1) := by
  refine ⟨increment_t0 _ _ _, ?_, ?_, ?_⟩
  · rw [increment_t0]; omega
  · intro hb
    subst hb
    rw [counter, counter, increment_t0, increment_t1]
    simp only [if_true]
    constructor
    · trivial
    · split_ifs <;> omega
  · intro hb
    subst hb
    rfl

/-- Witness for claim C15: the low half `0xFFFFFFFF` incremented by 1 with the switch on;
the carry reaches the high half. -/
theorem increment_with_carry_witness :
    (1 : Nat) < 2 ^ 32 ∧
    ({ zeroed with t0 := 0xFFFFFFFF } : blake2s_state).t0 < 2 ^ 32 ∧
    (blake2s_increment_counter true { zeroed with t0 := 0xFFFFFFFF } 1).t0
      = (({ zeroed with t0 := 0xFFFFFFFF } : blake2s_state).t0 + 1) % 2 ^ 32 :=
  ⟨by decide, by decide,
    (increment_with_carry true { zeroed with t0 := 0xFFFFFFFF } 1 (by decide) (by decide)).1⟩

/-- Claim C16: for every chain `h` of 8 words, block, counter halves and flag,
`blake2s_compress` reads the block as 16 little-endian words, builds `v = h ++ IV` with
`t0`, `t1`, `f0` XORed into `v[12]`, `v[13]`, `v[14]`, applies `blake2s_round` for
`r = 0, ..., 9` in that order, and sets `h[i] := h[i] XOR v[i] XOR v[i+8]` for `i` in `0..7`. -/
theorem compress_structure (S : blake2s_state) (inp : List Nat) (hh : S.h.length = 8) :
    (blake2s_compress S inp).h = Spec.compress S.h inp S.t0 S.t1 S.f0 ∧
    (∀ i, i < 8 →
      (blake2s_compress S inp).h.getD i 0
        = S.h.getD i 0
          ^^^ (Spec.tenRounds (Spec.blockWords inp)
                (Spec.workVector S.h S.t0 S.t1 S.f0)).getD i 0
          ^^^ (Spec.tenRounds (Spec.blockWords inp)
                (Spec.workVector S.h S.t0 S.t1 S.f0)).getD (i + 8) 0) ∧
    (∀ i, i < 8 → (Spec.workVector S.h S.t0 S.t1 S.f0).getD i 0 = S.h.getD i 0) ∧
    (Spec.workVector S.h S.t0 S.t1 S.f0).drop 8
      = [blake2s_IV.getD 0 0, blake2s_IV.getD 1 0, blake2s_IV.getD 2 0, blake2s_IV.getD 3 0,
         blake2s_IV.getD 4 0 ^^^ S.t0, blake2s_IV.getD 5 0 ^^^ S.t1,
         blake2s_IV.getD 6 0 ^^^ S.f0, blake2s_IV.getD 7 0] := by
  obtain ⟨h, t0, t1, f0, buf, buflen⟩ := S
  simp only at hh ⊢
  match h, hh with
  | [a0, a1, a2, a3, a4, a5, a6, a7], _ =>
    have key : (blake2s_compress ⟨[a0, a1, a2, a3, a4, a5, a6, a7], t0, t1, f0, buf, buflen⟩
        inp).h = Spec.compress [a0, a1, a2, a3, a4, a5, a6, a7] inp t0 t1 f0 := by
      simp only [blake2s_compress, Spec.compress, Spec.tenRounds, Spec.workVector, range10,
        blake2s_IV, List.foldl_cons, List.foldl_nil,
        List.take, List.cons_append, List.nil_append, List.set_cons_succ, List.set_cons_zero,
        List.getD_cons_succ, List.getD_cons_zero]
      rfl
    refine ⟨key, ?_, ?_, rfl⟩
    · intro i hi
      rw [key]
      interval_cases i <;> rfl
    · intro i hi
      interval_cases i <;> rfl

/-- Witness for claim C16: the all-zero state and a block of 64 zero bytes. -/
theorem compress_structure_witness :
    zeroed.h.length = 8 ∧
    (blake2s_compress zeroed (List.replicate 64 0)).h
      = Spec.compress zeroed.h (List.replicate 64 0) zeroed.t0 zeroed.t1 zeroed.f0 :=
  ⟨by decide, (compress_structure zeroed (List.replicate 64 0) (by decide)).1⟩
/-- Claim C17: for every round index `r`, message `m` and working vector `v` of 32-bit
words, `blake2s_round r m v` is eight applications of the mixing step `G` (additions modulo
`2^32`, rotations by 16, 12, 8, 7), in order at the word positions (0,4,8,12), (1,5,9,13),
(2,6,10,14), (3,7,11,15), (0,5,10,15), (1,6,11,12), (2,7,8,13), (3,4,9,14), where
application `i` uses `m[sigma[r][i] >> 4]` and `m[sigma[r][i] & 0xf]`.  The index arithmetic
of the loop gives exactly that table, and `rotr32` is a true rotation of 32-bit words: bit
`i` of the result is bit `(i + c) mod 32` of the argument, and it agrees with the rotation
used by `G`. -/
theorem round_is_eight_G (r : Nat) (m v : List Nat) (hv : Words32 v) :
    blake2s_round r m v
      = RFC7693.G (RFC7693.G (RFC7693.G (RFC7693.G (RFC7693.G (RFC7693.G (RFC7693.G (RFC7693.G v
          0 4 8 12
            (m.getD ((blake2s_sigma.getD r []).getD 0 0 >>> 4) 0)
            (m.getD ((blake2s_sigma.getD r []).getD 0 0 &&& 0xf) 0))
          1 5 9 13
            (m.getD ((blake2s_sigma.getD r []).getD 1 0 >>> 4) 0)
            (m.getD ((blake2s_sigma.getD r []).getD 1 0 &&& 0xf) 0))
          2 6 10 14
            (m.getD ((blake2s_sigma.getD r []).getD 2 0 >>> 4) 0)
            (m.getD ((blake2s_sigma.getD r []).getD 2 0 &&& 0xf) 0))
          3 7 11 15
            (m.getD ((blake2s_sigma.getD r []).getD 3 0 >>> 4) 0)
            (m.getD ((blake2s_sigma.getD r []).getD 3 0 &&& 0xf) 0))
          0 5 10 15
            (m.getD ((blake2s_sigma.getD r []).getD 4 0 >>> 4) 0)
            (m.getD ((blake2s_sigma.getD r []).getD 4 0 &&& 0xf) 0))
          1 6 11 12
            (m.getD ((blake2s_sigma.getD r []).getD 5 0 >>> 4) 0)
            (m.getD ((blake2s_sigma.getD r []).getD 5 0 &&& 0xf) 0))
          2 7 8 13
            (m.getD ((blake2s_sigma.getD r []).getD 6 0 >>> 4) 0)
            (m.getD ((blake2s_sigma.getD r []).getD 6 0 &&& 0xf) 0))
          3 4 9 14
            (m.getD ((blake2s_sigma.getD r []).getD 7 0 >>> 4) 0)
            (m.getD ((blake2s_sigma.getD r []).getD 7 0 &&& 0xf) 0) ∧
    (List.range 8).map (fun i =>
        [(i + i / 4 * 0) % 4 + 0, (i + i / 4 * 1) % 4 + 4,
         (i + i / 4 * 2) % 4 + 8, (i + i / 4 * 2 + i / 4) % 4 + 12])
      = [[0, 4, 8, 12], [1, 5, 9, 13], [2, 6, 10, 14], [3, 7, 11, 15],
         [0, 5, 10, 15], [1, 6, 11, 12], [2, 7, 8, 13], [3, 4, 9, 14]] ∧
    (∀ w c i, w < 2 ^ 32 → c ≤ 32 →
      rotr32 w c = RFC7693.rotr w c ∧ rotr32 w c < 2 ^ 32 ∧
      (rotr32 w c).testBit i = (decide (i < 32) && w.testBit ((i + c) % 32))) := by
  refine ⟨?_, by decide, fun w c i hw hc =>
    ⟨rotr32_eq_rotr w c hw hc, rotr32_lt w c, rotr32_testBit w c i hw hc⟩⟩
  unfold blake2s_round
  rw [(foldl_congr_inv Words32 _ _ (List.range 8)
    (fun v hv i _ => round_body_eq_G r m v i hv)
    (fun _ hv _ _ => G_words hv _ _ _ _ _ _) v hv).1, range8]
  simp only [List.foldl_cons, List.foldl_nil, Nat.reduceMod, Nat.reduceDiv, Nat.reduceMul,
    Nat.reduceAdd]

/-- Witness for claim C17: round 1 on the message words `0..15` and an all-zero vector. -/
theorem round_is_eight_G_witness :
    Words32 (List.replicate 16 0) ∧
    blake2s_round 1 (List.range 16) (List.replicate 16 0)
      = RFC7693.G (RFC7693.G (RFC7693.G (RFC7693.G (RFC7693.G (RFC7693.G (RFC7693.G (RFC7693.G (List.replicate 16 0)
          0 4 8 12
            ((List.range 16).getD ((blake2s_sigma.getD 1 []).getD 0 0 >>> 4) 0)
            ((List.range 16).getD ((blake2s_sigma.getD 1 []).getD 0 0 &&& 0xf) 0))
          1 5 9 13
            ((List.range 16).getD ((blake2s_sigma.getD 1 []).getD 1 0 >>> 4) 0)
            ((List.range 16).getD ((blake2s_sigma.getD 1 []).getD 1 0 &&& 0xf) 0))
          2 6 10 14
            ((List.range 16).getD ((blake2s_sigma.getD 1 []).getD 2 0 >>> 4) 0)
            ((List.range 16).getD ((blake2s_sigma.getD 1 []).getD 2 0 &&& 0xf) 0))
          3 7 11 15
            ((List.range 16).getD ((blake2s_sigma.getD 1 []).getD 3 0 >>> 4) 0)
            ((List.range 16).getD ((blake2s_sigma.getD 1 []).getD 3 0 &&& 0xf) 0))
          0 5 10 15
            ((List.range 16).getD ((blake2s_sigma.getD 1 []).getD 4 0 >>> 4) 0)
            ((List.range 16).getD ((blake2s_sigma.getD 1 []).getD 4 0 &&& 0xf) 0))
          1 6 11 12
            ((List.range 16).getD ((blake2s_sigma.getD 1 []).getD 5 0 >>> 4) 0)
            ((List.range 16).getD ((blake2s_sigma.getD 1 []).getD 5 0 &&& 0xf) 0))
          2 7 8 13
            ((List.range 16).getD ((blake2s_sigma.getD 1 []).getD 6 0 >>> 4) 0)
            ((List.range 16).getD ((blake2s_sigma.getD 1 []).getD 6 0 &&& 0xf) 0))
          3 4 9 14
            ((List.range 16).getD ((blake2s_sigma.getD 1 []).getD 7 0 >>> 4) 0)
            ((List.range 16).getD ((blake2s_sigma.getD 1 []).getD 7 0 &&& 0xf) 0) :=
  ⟨fun _ hx => (List.eq_of_mem_replicate hx) ▸ (by decide),
    (round_is_eight_G 1 (List.range 16) (List.replicate 16 0)
      (fun _ hx => (List.eq_of_mem_replicate hx) ▸ (by decide))).1⟩

/-- Claim C18: for every round `r` in `0..9` the 16 nibbles unpacked from `blake2s_sigma[r]`
(high nibble, then low nibble of each byte) are a permutation of `0..15`; the two indices
of one byte are distinct; they are the indices `blake2s_round` reads; and the unpacked
10 x 16 table is the standard BLAKE2s sigma schedule, with rows 0 and 1 as listed. -/
theorem sigma_unpacked :
    (∀ r, r < 10 → (unpack (blake2s_sigma.getD r [])).Perm (List.range 16)) ∧
    (∀ r, r < 10 → ∀ i, i < 8 →
      (blake2s_sigma.getD r []).getD i 0 >>> 4 ≠ (blake2s_sigma.getD r []).getD i 0 &&& 0xf) ∧
    (∀ r, r < 10 → ∀ i, i < 8 →
      (unpack (blake2s_sigma.getD r [])).getD (2 * i) 16
        = (blake2s_sigma.getD r []).getD i 0 >>> 4 ∧
      (unpack (blake2s_sigma.getD r [])).getD (2 * i + 1) 16
        = (blake2s_sigma.getD r []).getD i 0 &&& 0xf) ∧
    blake2s_sigma.length = 10 ∧
    blake2s_sigma.map unpack = RFC7693.SIGMA ∧
    unpack (blake2s_sigma.getD 0 [])
      = [0, 1, 2, 3, 4, 5, 6, 7, 8, 9, 10, 11, 12, 13, 14, 15] ∧
    unpack (blake2s_sigma.getD 1 [])
      = [14, 10, 4, 8, 9, 15, 13, 6, 1, 12, 0, 2, 11, 7, 5, 3] := by
  refine ⟨by decide, by decide, by decide, by decide, by decide, by decide, by decide⟩

/-- Claim C19: `blake2s_compress` is a pure function of chain, block, counter halves and
flag.  It leaves the counter, the flag, the buffer bytes and the buffer length unchanged,
and two states that agree on `h`, `t` and `f0` get the same new chain for the same block,
whatever their buffers and buffer lengths. -/
theorem compress_frame (S1 S2 : blake2s_state) (inp : List Nat)
    (hh : S1.h = S2.h) (ht0 : S1.t0 = S2.t0) (ht1 : S1.t1 = S2.t1) (hf : S1.f0 = S2.f0) :
    (blake2s_compress S1 inp).t0 = S1.t0 ∧ (blake2s_compress S1 inp).t1 = S1.t1 ∧
    (blake2s_compress S1 inp).f0 = S1.f0 ∧ (blake2s_compress S1 inp).buf = S1.buf ∧
    (blake2s_compress S1 inp).buflen = S1.buflen ∧
    (blake2s_compress S1 inp).h = (blake2s_compress S2 inp).h := by
  refine ⟨rfl, rfl, rfl, rfl, rfl, ?_⟩
  unfold blake2s_compress
  simp only [hh, ht0, ht1, hf]

/-- Witness for claim C19: the all-zero state with buffer length 0 and with buffer
length 5. -/
theorem compress_frame_witness :
    zeroed.h = ({ zeroed with buflen := 5 } : blake2s_state).h ∧
    zeroed.t0 = ({ zeroed with buflen := 5 } : blake2s_state).t0 ∧
    zeroed.t1 = ({ zeroed with buflen := 5 } : blake2s_state).t1 ∧
    zeroed.f0 = ({ zeroed with buflen := 5 } : blake2s_state).f0 ∧
    (blake2s_compress zeroed (List.replicate 64 0)).h
      = (blake2s_compress { zeroed with buflen := 5 } (List.replicate 64 0)).h :=
  ⟨rfl, rfl, rfl, rfl,
    (compress_frame zeroed { zeroed with buflen := 5 } (List.replicate 64 0)
      rfl rfl rfl rfl).2.2.2.2.2⟩

